import Mathlib

/-!
# wordle-helper: the word-list pipeline of `wordle-helper.c`

A shallow embedding of the C program: the validation of the command line, the
tokenizer, the constraint filters, the weighting table, the scorer, the ranker and
the output.

Conventions of the embedding.

* A `char` is its integer value (`Int`), whatever the platform's signedness of
  `char`; a `StringViewer` (pointer and length into the corpus buffer) is the list
  of the chars it views; a `const char*` C string is the list of its chars before
  the terminating NUL, so `strlen` is `List.length`.
* The `<ctype.h>` functions are those of the "C" locale, the only locale the
  program ever runs in (it never calls `setlocale`).
* `float` cells of the weighting table are read as exact rationals; rounding is
  not modelled.
* `qsort`/`qsort_r` belong to the C library; see `qsort` below.
-/

namespace WordleHelper

/-! ## Characters -/

/-- The chars of a string literal, for writing concrete corpora and words. -/
def chars (s : String) : List Int := s.toList.map (fun c => (c.toNat : Int))

/-- `isspace` in the "C" locale: space, `\t`, `\n`, `\v`, `\f`, `\r`. -/
def isspace (c : Int) : Bool := c == 32 || (9 ≤ c && c ≤ 13)

/-- `tolower` in the "C" locale: `'A'..'Z'` are moved to `'a'..'z'`, everything
else is returned unchanged. -/
def tolower (c : Int) : Int := if 65 ≤ c ∧ c ≤ 90 then c + 32 else c

/-- The cast `(unsigned char)c`, used as an index into a 256-bin array. -/
def to_uchar (c : Int) : Nat := (c % 256).toNat

/-! ## Data model -/

/-- `StringViewer`: the chars viewed. -/
abbrev StringViewer := List Int

/-- `StringViewers`: the growable array of tokens, in insertion order. -/
abbrev StringViewers := List StringViewer

/-- `Command`, field for field. -/
structure Command where
  lenPresent : Bool
  len : Nat
  isBest : Bool
  isAlpha : Bool
  withLettersPresent : Bool
  withLetters : List Int
  withoutLettersPresent : Bool
  withoutLetters : List Int
  patternPresent : Bool
  pattern : List Int

/-- `float** weightings`: `w r j` is the cell `weightings[r][j]`. The row index is
the C `int` expression used to index, so a row outside `0..25` stands for an access
outside the allocated 26 rows. -/
abbrev Weightings := Int → Nat → ℚ

/-! ## Tokenizer -/

/-- `trim_left`: advance the view past its leading whitespace. -/
def trim_left : StringViewer → StringViewer
  | [] => []
  | c :: cs => if isspace c then trim_left cs else c :: cs

/-- `split_word`: the result is the leading run of non-whitespace chars (`i` chars);
the input view advances by `i + 1` when a char follows the run (`i < length`), by
`i` otherwise. Returns `(result, input afterwards)`. -/
def split_word : StringViewer → StringViewer × StringViewer
  | [] => ([], [])
  | c :: cs =>
    if isspace c then ([], cs)
    else ((c :: (split_word cs).1), (split_word cs).2)

/-- `append_token`: store the item at index `count`. -/
def append_token (list : StringViewers) (item : StringViewer) : StringViewers :=
  list ++ [item]

/-! ## Constraint filters -/

/-- The statement `freq[k]++` on an int array. -/
def incr_at (freq : List Int) (k : Nat) : List Int := freq.set k (freq.getD k 0 + 1)

/-- The 256-bin histogram built by one of the two counting loops of
`contains_withletters`, from an array initialised to zero. -/
def letters_freq (s : List Int) : List Int :=
  s.foldl (fun freq c => incr_at freq (to_uchar c)) (List.replicate 256 0)

/-- `contains_withletters`: histogram both strings by raw byte and fail on the
first bin where the token has fewer occurrences. -/
def contains_withletters (token : StringViewer) (withLetters : List Int) : Bool :=
  let withLettersFreq := letters_freq withLetters
  let stringLettersFreq := letters_freq token
  (List.range 256).all fun k => !(decide (stringLettersFreq.getD k 0 < withLettersFreq.getD k 0))

/-- `contains_withoutLetters`: true as soon as a token char and a forbidden char
agree after `tolower`. -/
def contains_withoutLetters (token : StringViewer) (withoutLetters : List Int) : Bool :=
  token.any fun t => withoutLetters.any fun f => tolower t == tolower f

/-- The loop of `matches_pattern`, over both strings in step (the lengths are
equal when it runs, so the last case is never reached). -/
def matches_pattern_loop : StringViewer → List Int → Bool
  | _, [] => true
  | t :: ts, p :: ps =>
    if p = 95 then matches_pattern_loop ts ps
    else if p ≠ t then false
    else matches_pattern_loop ts ps
  | [], _ :: _ => false

/-- `matches_pattern`. -/
def matches_pattern (token : StringViewer) (pattern : List Int) : Bool :=
  if token.length ≠ pattern.length then false
  else matches_pattern_loop token pattern

/-! ## Weighting model -/

/-- The statement `weightings[r][j] += 1`. -/
def cell_incr (w : Weightings) (r : Int) (j : Nat) : Weightings :=
  fun r' j' => if r' = r ∧ j' = j then w r' j' + 1 else w r' j'

/-- The loop of `update_weightings` from position `i` on: every char, letter or
not, increments the cell in row `tolower(c) - 'a'` at its position. A row outside
`0..25` stands for the write through a pointer read outside the 26 rows, which in C
is undefined (no table results from it); the embedding only records which row the
statement addresses. -/
def update_weightings_loop (w : Weightings) (i : Nat) : StringViewer → Weightings
  | [] => w
  | c :: cs => update_weightings_loop (cell_incr w (tolower c - 97) i) (i + 1) cs

/-- `update_weightings`. -/
def update_weightings (w : Weightings) (token : StringViewer) : Weightings :=
  update_weightings_loop w 0 token

/-- `normalise_weightings`: every cell of the 26 rows and `length` columns is
divided by `count`. The division is the rationals' (`x / 0 = 0`), which is not what
the C division by a zero count yields (`0.0f / 0.0f` is a NaN): a statement about a
zero count has to treat that case apart. -/
def normalise_weightings (w : Weightings) (count : ℚ) (length : Nat) : Weightings :=
  fun r j => if 0 ≤ r ∧ r < 26 ∧ j < length then w r j / count else w r j

/-- `init_weightings`: 26 rows of `length` zeroed cells; cells outside read as 0. -/
def init_weightings (_length : Nat) : Weightings := fun _ _ => 0

/-! ## Building the candidate list -/

/-- The variables the loop of `populate_wordlist` works on. -/
structure PopulateState where
  wordList : StringViewers
  content : StringViewer
  weighting_words : Int
  weightings : Weightings

/-- One iteration of the `while` loop of `populate_wordlist`; each early exit is a
`continue` of the source. -/
def populate_step (command : Command) (st : PopulateState) : PopulateState :=
  let trimmed := trim_left st.content
  let token := (split_word trimmed).1
  let content := (split_word trimmed).2
  if token.length ≠ command.len then
    { st with content := content }
  else
    let weighting_words := st.weighting_words + 1
    let weightings := update_weightings st.weightings token
    let skipped : PopulateState :=
      { st with content := content, weighting_words := weighting_words,
                weightings := weightings }
    if command.withLettersPresent = true ∧
        ¬ contains_withletters token command.withLetters = true then skipped
    else if command.withoutLettersPresent = true ∧
        contains_withoutLetters token command.withoutLetters = true then skipped
    else if command.patternPresent = true ∧
        ¬ matches_pattern token command.pattern = true then skipped
    else { skipped with wordList := append_token st.wordList token }

/-- The `while (content->length > 0)` loop, run for at most `fuel` iterations. -/
def populate_loop (command : Command) : Nat → PopulateState → PopulateState
  | 0, st => st
  | fuel + 1, st =>
    if st.content.length > 0 then populate_loop command fuel (populate_step command st)
    else st

/-- `populate_wordlist`: the loop, then the normalisation of the table. Every
iteration that starts with a non-empty view consumes at least one char, so
`content.length` iterations are enough for the loop to reach its exit
(`populate_loop_content`). -/
def populate_wordlist (wordList : StringViewers) (content : StringViewer)
    (command : Command) (weightings : Weightings) : PopulateState :=
  let st := populate_loop command content.length
    { wordList := wordList, content := content, weighting_words := 0,
      weightings := weightings }
  { st with weightings := normalise_weightings st.weightings st.weighting_words command.len }

/-- The tokens the loop of `populate_wordlist` takes from the buffer, in order:
`trim_left` then `split_word`, while the view is not empty. -/
def tokens_loop : Nat → StringViewer → List StringViewer
  | 0, _ => []
  | fuel + 1, content =>
    if content.length > 0 then
      (split_word (trim_left content)).1 :: tokens_loop fuel (split_word (trim_left content)).2
    else []

/-- The token sequence of a corpus buffer. -/
def tokenize (content : StringViewer) : List StringViewer :=
  tokens_loop content.length content

/-! ## Scorer -/

/-- The table `letterFrequency`. -/
def letterFrequency : List Int :=
  [8, 1, 3, 4, 13, 2, 2, 6, 7, 0, 1, 4, 2, 7, 8, 2, 0, 6, 6, 9, 3, 1, 2, 0, 2, 0]

/-- The first loop of `calculateWordScore` from position `i` on, on the pair
`(score, letterCount)`. The `float` products and sums are taken exactly, as
rationals: the rounding of each product and partial sum to a `float` is not
modelled, so a value of this loop stands for the C value only up to that rounding. -/
def score_loop (w : Weightings) : Nat → List Int → ℚ × List Int → ℚ × List Int
  | _, [], acc => acc
  | i, c :: cs, acc =>
    let lowerChar := tolower c
    if 97 ≤ lowerChar ∧ lowerChar ≤ 122 then
      let index := (lowerChar - 97).toNat
      score_loop w (i + 1) cs
        (acc.1 + (letterFrequency.getD index 0 : ℚ) * w index i, incr_at acc.2 index)
    else score_loop w (i + 1) cs acc

/-- The second loop of `calculateWordScore`: the penalty for repeated letters. -/
def penalty_loop (letterCount : List Int) (score : ℚ) : ℚ :=
  (List.range 26).foldl
    (fun s i =>
      if letterCount.getD i 0 > 1 then s - (((letterCount.getD i 0 - 1) * 2 : Int) : ℚ) else s)
    score

/-- The conversion of a `float` to `int` at `return score;`: truncation toward
zero. It is defined in C only for a value in the range of `int`; the embedding
gives the exact truncation. -/
def float_to_int (q : ℚ) : Int := if 0 ≤ q then ⌊q⌋ else ⌈q⌉

/-- `calculateWordScore`, with the arithmetic of `score_loop` and `penalty_loop`
exact. -/
def calculateWordScore (word : List Int) (w : Weightings) : Int :=
  let acc := score_loop w 0 word (0, List.replicate 26 0)
  float_to_int (penalty_loop acc.2 acc.1)

/-- A 32-bit `int` result, wrapped to two's complement. -/
def wrap32 (x : Int) : Int := (x + 2147483648) % 4294967296 - 2147483648

/-- `compareWords`: the `int` difference `score2 - score1`. -/
def compareWords (w : Weightings) (sv1 sv2 : StringViewer) : Int :=
  let score1 := calculateWordScore sv1 w
  let score2 := calculateWordScore sv2 w
  wrap32 (score2 - score1)

/-! ## Ranker -/

/-- `alphabet_compare`: the first position, among the first `sv1.length`, where the
two words differ after `tolower` decides. Both words of a comparison have the same
length in every candidate list, so the case of a shorter `sv2` (a read past the
view) is never reached; it is given the value 0. -/
def alphabet_compare : StringViewer → StringViewer → Int
  | [], _ => 0
  | _ :: _, [] => 0
  | a :: as, b :: bs =>
    let c1 := tolower a
    let c2 := tolower b
    if c1 ≠ c2 then c1 - c2 else alphabet_compare as bs

/-- The C library's `qsort` (and `qsort_r`, its comparator closed over the extra
argument). The library is not part of the program; it is modelled by a stable
insertion sort that places `a` before `b` when `compar a b ≤ 0`, which agrees with
every stable sort when the comparator is a consistent ordering. -/
def qsort {α : Type} (compar : α → α → Int) (base : List α) : List α :=
  base.insertionSort (fun a b => compar a b ≤ 0)

/-- `sort_wordlist`. -/
def sort_wordlist (wordList : StringViewers) (command : Command) (weightings : Weightings) :
    StringViewers :=
  let sorted := if command.isBest = true then qsort (compareWords weightings) wordList
    else wordList
  if command.isAlpha = true then qsort alphabet_compare sorted else sorted

/-- The loop of `print_wordlist` from index `i` on; the result is the chars written
to standard output. At `i == 10` the program exits. -/
def print_wordlist_loop : Nat → StringViewers → List Int
  | _, [] => []
  | i, word :: rest =>
    if i = 10 then [] else word ++ [10] ++ print_wordlist_loop (i + 1) rest

/-- `print_wordlist`. -/
def print_wordlist (wordList : StringViewers) : List Int :=
  print_wordlist_loop 0 wordList

/-- `init_command`; the pointers it leaves unset are empty strings here. -/
def init_command : Command :=
  { lenPresent := false, len := 5, isBest := false, isAlpha := false,
    withLettersPresent := false, withLetters := [],
    withoutLettersPresent := false, withoutLetters := [],
    patternPresent := false, pattern := [] }

/-! ## The constraint filter as a predicate -/

/-- The constraint filter as one predicate. -/
def accepts (command : Command) (token : StringViewer) : Bool :=
  decide (token.length = command.len) &&
  ((!command.withLettersPresent || contains_withletters token command.withLetters) &&
  ((!command.withoutLettersPresent || !contains_withoutLetters token command.withoutLetters) &&
  (!command.patternPresent || matches_pattern token command.pattern)))

/-! ## Reference notions and concrete inputs used in the statements -/

/-- The whitespace-delimited words of a buffer, as the specification describes
them: the non-empty maximal runs of non-whitespace chars, in order. -/
def words (content : List Int) : List (List Int) :=
  (content.splitOnP isspace).filter (fun run => !run.isEmpty)

/-- A word with every char lower-cased. -/
def lower (word : List Int) : List Int := word.map tolower

/-- The command of the scenario `-with a -without e _____` (length 5). -/
def scenario_command : Command :=
  { init_command with
    withLettersPresent := true, withLetters := chars "a",
    withoutLettersPresent := true, withoutLetters := chars "e",
    patternPresent := true, pattern := chars "_____" }

/-- The command `-len 0`, no other constraint. -/
def len0_command : Command := { init_command with lenPresent := true, len := 0 }

/-- The lexicographic order `≤` on words. -/
def lex_le (x y : List Int) : Prop := x = y ∨ List.Lex (· < ·) x y

/-- The command `-best`. -/
def best_command : Command := { init_command with isBest := true }

/-- The command `-alpha`. -/
def alpha_command : Command := { init_command with isAlpha := true }

/-- A table in which only `'a'` at position 0 has a weight, one half. -/
def half_table : Weightings := fun r j => if r = 0 ∧ j = 0 then 1 / 2 else 0

/-- The list `run_command` hands to `print_wordlist`: the candidates of the corpus
buffer, built from an empty list and a zeroed table, then sorted. -/
def ranked_wordlist (content : StringViewer) (command : Command) : StringViewers :=
  let st := populate_wordlist [] content command (init_weightings command.len)
  sort_wordlist st.wordList command st.weightings

/-! ## Reference notions for the scorer -/

/-- `isalpha` in the "C" locale: the ASCII letters. -/
def isalpha (c : Int) : Bool := (65 ≤ c && c ≤ 90) || (97 ≤ c && c ≤ 122)

/-- The index `0..25` of a letter, taken case-insensitively (`tolower(c) - 'a'`). -/
def letter_index (c : Int) : Nat := (tolower c - 97).toNat

/-- The contribution of the char `c` at position `i` to the score: the frequency of
the letter times its weighting at that position, and nothing for a non-letter. -/
def letter_term (w : Weightings) (i : Nat) (c : Int) : ℚ :=
  if isalpha c = true then
    (letterFrequency.getD (letter_index c) 0 : ℚ) * w (letter_index c) i
  else 0

/-- The sum `S` of the letter contributions over the positions of a word. -/
def weighted_sum (word : List Int) (w : Weightings) : ℚ :=
  ∑ i ∈ Finset.range word.length, letter_term w i (word.getD i 0)

/-- How often the letter of index `l` occurs in a word, in either case. -/
def occurrences (word : List Int) (l : Nat) : Nat :=
  word.countP (fun c => tolower c == 97 + (l : Int))

/-- The penalty `P`: `2 × (k − 1)` for every letter that occurs `k > 1` times. -/
def penalty (word : List Int) : Int :=
  ∑ l ∈ Finset.range 26,
    if 1 < occurrences word l then 2 * ((occurrences word l : Int) - 1) else 0

/-! ## Reference notions for the weighting table -/

/-- The tokens of the corpus buffer whose length is the target length: the tokens
the weighting table is accumulated from. -/
def length_tokens (content : StringViewer) (length : Nat) : List StringViewer :=
  (tokenize content).filter (fun token => token.length = length)

/-- How many of the tokens have, at position `j`, a char whose row index
`tolower(c) - 'a'` is `r`. -/
def position_count (tokens : List StringViewer) (r : Int) (j : Nat) : Nat :=
  tokens.countP (fun token => decide (j < token.length) && decide (tolower (token.getD j 0) - 97 = r))

/-- The command `-len 3`, no other constraint. -/
def len3_command : Command := { init_command with lenPresent := true, len := 3 }

/-- Whether `normalise_weightings` divides by zero: it does, for every cell, when
`count` is 0 and the table has a column. The C quotient of a cell is then
`0.0f / 0.0f`, a NaN (an infinity for a non-zero cell), where the division of the
rationals gives 0. -/
def normalise_divides_by_zero (count : ℚ) (length : Nat) : Bool :=
  decide (count = 0) && decide (0 < length)

/-! ## Command line -/

/-- `isdigit`: the decimal digits. -/
def isdigit (c : Int) : Bool := 48 ≤ c && c ≤ 57

/-- `atoi` on a string the digit loop has let through (decimal digits only, or
nothing at all): its decimal value, 0 for the empty string. The value is exact; past
the range of `int` the C result is undefined. -/
def atoi (s : List Int) : Nat := s.foldl (fun n c => 10 * n + (c - 48).toNat) 0

/-- The `for` loop of `is_command_valid` over the arguments not yet read
(`argv[i]`, `argv[i + 1]`, ...). The result is the returned value and the command
as the function leaves it. -/
def is_command_valid_loop : List (List Int) → Command → Bool × Command
  | [], command => (true, command)
  | arg :: rest, command =>
    if arg = chars "-alpha" then
      if command.isBest = true ∨ command.isAlpha = true then (false, command)
      else is_command_valid_loop rest { command with isAlpha := true }
    else if arg = chars "-best" then
      if command.isAlpha = true ∨ command.isBest = true then (false, command)
      else is_command_valid_loop rest { command with isBest := true }
    else if arg = chars "-len" then
      match rest with
      | [] => (false, command)
      | lenArg :: rest' =>
        if command.lenPresent = true then (false, command)
        else if lenArg.all isdigit = true then
          is_command_valid_loop rest'
            { command with lenPresent := true, len := atoi lenArg }
        else (false, { command with lenPresent := true })
    else if arg = chars "-with" then
      match rest with
      | [] => (false, command)
      | withLettersArg :: rest' =>
        if command.withLettersPresent = true then (false, command)
        else if withLettersArg = [] then
          is_command_valid_loop rest' { command with withLettersPresent := false }
        else if withLettersArg.all isalpha = true then
          is_command_valid_loop rest'
            { command with withLettersPresent := true, withLetters := withLettersArg }
        else (false, { command with withLettersPresent := true })
    else if arg = chars "-without" then
      match rest with
      | [] => (false, command)
      | withoutLettersArg :: rest' =>
        if command.withoutLettersPresent = true then (false, command)
        else if withoutLettersArg = [] then
          is_command_valid_loop rest' { command with withoutLettersPresent := false }
        else if withoutLettersArg.all isalpha = true then
          is_command_valid_loop rest'
            { command with withoutLettersPresent := true,
                           withoutLetters := withoutLettersArg }
        else (false, { command with withoutLettersPresent := true })
    else if command.patternPresent = false ∧ arg.head? ≠ some 45 then
      is_command_valid_loop rest { command with patternPresent := true, pattern := arg }
    else (false, command)

/-- `is_command_valid`: `argv` is the whole argument vector (`argv[0]` the program
name), `argc` its length. -/
def is_command_valid (argv : List (List Int)) (command : Command) : Bool × Command :=
  if argv.length > 9 then (false, command)
  else if argv.length = 1 then (true, command)
  else is_command_valid_loop argv.tail command

/-- `isunderscore`. -/
def isunderscore (character : Int) : Bool := if character ≠ 95 then false else true

/-- `is_valid_pattern`: the returned value and the command as the function leaves
it (an empty pattern of length 0 clears `patternPresent`). -/
def is_valid_pattern (command : Command) : Bool × Command :=
  if command.len ≠ command.pattern.length then (false, command)
  else if command.pattern = [] then (true, { command with patternPresent := false })
  else if command.pattern.all (fun c => isalpha c || isunderscore c) = true then
    (true, command)
  else (false, command)

/-- The part of `main` before `run_command`: the command `run_command` is called
with, or the exit status of `usage_error` (1) or `pattern_error` (2). -/
def main_command (argv : List (List Int)) : Except Nat Command :=
  if (is_command_valid argv init_command).1 = false then Except.error 1
  else if (is_command_valid argv init_command).2.patternPresent = true then
    if (is_valid_pattern (is_command_valid argv init_command).2).1 = false then Except.error 2
    else Except.ok (is_valid_pattern (is_command_valid argv init_command).2).2
  else Except.ok (is_command_valid argv init_command).2

/-- How many of the arguments are one of the two ranking flags, `-alpha` or
`-best`. -/
def flag_count (args : List (List Int)) : Nat :=
  args.count (chars "-alpha") + args.count (chars "-best")

/-! ## Loop counters of the tokenizer -/

/-- The value of `i` when the loop of `trim_left` stops: the number of leading
whitespace chars of the view. -/
def trim_left_i : StringViewer → Nat
  | [] => 0
  | c :: cs => if isspace c then trim_left_i cs + 1 else 0

/-- The value of `i` when the loop of `split_word` stops: the number of leading
non-whitespace chars of the view. -/
def split_word_i : StringViewer → Nat
  | [] => 0
  | c :: cs => if isspace c then 0 else split_word_i cs + 1

/-- The number of iterations the `while` loop of `populate_wordlist` runs when it
is allowed at most `fuel` of them. -/
def populate_iterations (command : Command) : Nat → PopulateState → Nat
  | 0, _ => 0
  | fuel + 1, st =>
    if st.content.length > 0 then
      populate_iterations command fuel (populate_step command st) + 1
    else 0

/-! # Theorems -/

/-! ## The tokenizing loop and the candidate list -/

theorem populate_step_content (command : Command) (st : PopulateState) :
    (populate_step command st).content = (split_word (trim_left st.content)).2 := by
  unfold populate_step
  simp only
  split_ifs <;> rfl

theorem accepts_iff (command : Command) (token : StringViewer) :
    accepts command token = true ↔
      token.length = command.len ∧
      (command.withLettersPresent = true →
        contains_withletters token command.withLetters = true) ∧
      (command.withoutLettersPresent = true →
        contains_withoutLetters token command.withoutLetters = false) ∧
      (command.patternPresent = true → matches_pattern token command.pattern = true) := by
  unfold accepts
  cases command.withLettersPresent <;> cases command.withoutLettersPresent <;>
    cases command.patternPresent <;> simp

theorem populate_step_wordList (command : Command) (st : PopulateState) :
    (populate_step command st).wordList =
      st.wordList ++ [(split_word (trim_left st.content)).1].filter (accepts command) := by
  by_cases hacc : accepts command (split_word (trim_left st.content)).1 = true
  · rw [List.filter_cons_of_pos hacc]
    obtain ⟨h1, h2, h3, h4⟩ := (accepts_iff _ _).mp hacc
    unfold populate_step append_token
    simp only
    split_ifs <;> simp_all
  · rw [List.filter_cons_of_neg hacc]
    have hn := mt (accepts_iff _ _).mpr hacc
    unfold populate_step append_token
    simp only
    split_ifs <;> simp_all

theorem trim_left_length_le (s : StringViewer) : (trim_left s).length ≤ s.length := by
  induction s with
  | nil => simp [trim_left]
  | cons c cs ih =>
    unfold trim_left
    split_ifs
    · exact Nat.le_succ_of_le ih
    · exact Nat.le_refl _

theorem split_word_snd_length_le (s : StringViewer) : (split_word s).2.length ≤ s.length := by
  induction s with
  | nil => simp [split_word]
  | cons c cs ih =>
    unfold split_word
    split_ifs
    · simp
    · exact Nat.le_succ_of_le ih

theorem split_word_snd_length_lt (c : Int) (s : StringViewer) :
    (split_word (c :: s)).2.length < (c :: s).length := by
  unfold split_word
  split_ifs
  · simp
  · exact Nat.lt_succ_of_le (split_word_snd_length_le s)

/-- An iteration entered with a non-empty view leaves a strictly shorter view. -/
theorem split_trim_length_lt (s : StringViewer) (h : 0 < s.length) :
    (split_word (trim_left s)).2.length < s.length := by
  cases ht : trim_left s with
  | nil => simpa [split_word] using h
  | cons c cs =>
    have h1 := split_word_snd_length_lt c cs
    have h2 := trim_left_length_le s
    rw [ht] at h2
    exact Nat.lt_of_lt_of_le h1 h2

theorem populate_loop_wordList (command : Command) (fuel : Nat) (st : PopulateState) :
    (populate_loop command fuel st).wordList =
      st.wordList ++ (tokens_loop fuel st.content).filter (accepts command) := by
  induction fuel generalizing st with
  | zero => simp [populate_loop, tokens_loop]
  | succ n ih =>
    unfold populate_loop tokens_loop
    split_ifs with h
    · rw [ih, populate_step_wordList, populate_step_content]
      simp [List.filter_cons]
      split_ifs <;> simp
    · simp

theorem populate_loop_content (command : Command) (fuel : Nat) (st : PopulateState)
    (h : st.content.length ≤ fuel) : (populate_loop command fuel st).content = [] := by
  induction fuel generalizing st with
  | zero =>
    simp only [populate_loop]
    exact List.length_eq_zero.mp (Nat.le_zero.mp h)
  | succ n ih =>
    unfold populate_loop
    split_ifs with h0
    · apply ih
      rw [populate_step_content]
      have := split_trim_length_lt st.content h0
      omega
    · exact List.length_eq_zero.mp (by omega)

theorem populate_wordlist_wordList (wordList : StringViewers) (content : StringViewer)
    (command : Command) (w : Weightings) :
    (populate_wordlist wordList content command w).wordList =
      wordList ++ (tokenize content).filter (accepts command) := by
  simp [populate_wordlist, tokenize, populate_loop_wordList]

/-! ## The tokenizer against the whitespace-delimited words -/

theorem splitOnP_split_word (s : StringViewer) :
    ∃ t, s.splitOnP isspace = (split_word s).1 :: t ∧
      t.filter (fun run => !run.isEmpty) = words (split_word s).2 := by
  induction s with
  | nil => exact ⟨[], by simp [split_word], by simp [split_word, words]⟩
  | cons c cs ih =>
    obtain ⟨t, ht1, ht2⟩ := ih
    rw [List.splitOnP_cons]
    unfold split_word
    by_cases hc : isspace c = true
    · exact ⟨cs.splitOnP isspace, by simp [hc], by simp [hc, words]⟩
    · refine ⟨t, ?_, ?_⟩
      · simp [hc, ht1]
      · simpa [hc] using ht2

theorem words_split_word (s : StringViewer) :
    words s = [(split_word s).1].filter (fun run => !run.isEmpty) ++ words (split_word s).2 := by
  obtain ⟨t, ht1, ht2⟩ := splitOnP_split_word s
  rw [← ht2]
  unfold words
  rw [ht1, show (split_word s).1 :: t = [(split_word s).1] ++ t from rfl, List.filter_append]

theorem words_trim_left (s : StringViewer) : words (trim_left s) = words s := by
  induction s with
  | nil => simp [trim_left]
  | cons c cs ih =>
    unfold trim_left
    by_cases hc : isspace c = true
    · rw [if_pos hc, ih]
      unfold words
      rw [List.splitOnP_cons]
      simp [hc]
    · rw [if_neg hc]

theorem tokens_loop_nonempty (fuel : Nat) :
    ∀ content : StringViewer, content.length ≤ fuel →
      (tokens_loop fuel content).filter (fun token => !token.isEmpty) = words content := by
  induction fuel with
  | zero =>
    intro content h
    have hc : content = [] := List.length_eq_zero.mp (Nat.le_zero.mp h)
    subst hc
    simp [tokens_loop, words]
  | succ n ih =>
    intro content h
    unfold tokens_loop
    split_ifs with h0
    · have hlt := split_trim_length_lt content h0
      rw [List.filter_cons, ← words_trim_left content, words_split_word (trim_left content),
        ← ih _ (by omega)]
      split_ifs <;> simp_all
    · have hc : content = [] := List.length_eq_zero.mp (by omega)
      subst hc
      simp [words]

/-- The tokens the loop takes from a buffer are the whitespace-delimited words of
the buffer, in order, apart from empty tokens. -/
theorem tokenize_nonempty (content : StringViewer) :
    (tokenize content).filter (fun token => !token.isEmpty) = words content :=
  tokens_loop_nonempty content.length content (le_refl _)

/-- For a target length of at least 1 and no other constraint, the candidate list
is the sequence of the whitespace-delimited words of the corpus whose length is the
target length, in corpus order. -/
theorem populate_wordlist_length_only (content : StringViewer) (command : Command)
    (w : Weightings) (hlen : 1 ≤ command.len)
    (hwith : command.withLettersPresent = false)
    (hwithout : command.withoutLettersPresent = false)
    (hpattern : command.patternPresent = false) :
    (populate_wordlist [] content command w).wordList =
      (words content).filter (fun word => word.length = command.len) := by
  rw [populate_wordlist_wordList, ← tokenize_nonempty, List.filter_filter, List.nil_append]
  apply List.filter_congr
  intro token _
  cases token with
  | nil =>
    have : ¬ (0 = command.len) := by omega
    simp [accepts, this]
  | cons c cs => simp [accepts, hwith, hwithout, hpattern]

/-! ## What the required-letters filter computes -/

theorem to_uchar_lt (c : Int) : to_uchar c < 256 := by
  unfold to_uchar
  omega

theorem incr_at_length (freq : List Int) (k : Nat) : (incr_at freq k).length = freq.length := by
  simp [incr_at]

theorem incr_at_getD (freq : List Int) (k j : Nat) (hk : k < freq.length) :
    (incr_at freq k).getD j 0 = freq.getD j 0 + (if j = k then 1 else 0) := by
  unfold incr_at
  by_cases hj : j = k
  · subst hj
    simp [List.getD_eq_getElem?_getD, List.getElem?_set, hk]
  · have hkj : ¬ k = j := fun h => hj h.symm
    simp [List.getD_eq_getElem?_getD, List.getElem?_set, hj, hkj]

theorem foldl_incr_at_getD (s : List Int) :
    ∀ freq : List Int, freq.length = 256 → ∀ j,
      ((s.foldl (fun freq c => incr_at freq (to_uchar c)) freq).getD j 0 =
        freq.getD j 0 + ((s.map to_uchar).count j : Int)) := by
  induction s with
  | nil => intro freq _ j; simp
  | cons c cs ih =>
    intro freq hlen j
    rw [List.foldl_cons, ih _ (by rw [incr_at_length, hlen]) j,
      incr_at_getD freq (to_uchar c) j (by rw [hlen]; exact to_uchar_lt c)]
    simp only [List.map_cons, List.count_cons]
    by_cases hj : j = to_uchar c
    · subst hj
      simp
      ring
    · have hj' : ¬ to_uchar c = j := fun h => hj h.symm
      simp [hj, hj']

theorem letters_freq_getD (s : List Int) (j : Nat) :
    (letters_freq s).getD j 0 = ((s.map to_uchar).count j : Int) := by
  unfold letters_freq
  have hzero : (List.replicate 256 (0 : Int)).getD j 0 = 0 := by
    rw [List.getD_eq_getElem?_getD, List.getElem?_replicate]
    split_ifs <;> rfl
  rw [foldl_incr_at_getD s _ (List.length_replicate _ _) j, hzero, zero_add]

/-- The required-letters filter accepts a token exactly when every byte value
occurs in the token at least as often as in the required string: the comparison is
of raw bytes, with no case folding. -/
theorem contains_withletters_iff (token : StringViewer) (withLetters : List Int) :
    contains_withletters token withLetters = true ↔
      ∀ k, k < 256 → (withLetters.map to_uchar).count k ≤ (token.map to_uchar).count k := by
  unfold contains_withletters
  simp only [List.all_eq_true, List.mem_range, letters_freq_getD, Bool.not_eq_true',
    decide_eq_false_iff_not, not_lt, Nat.cast_le]

/-! ## Constraint filters -/

/-- C1 (evaluation at the failing inputs): `contains_withletters` compares raw
bytes, so the token "Apple" does not satisfy the required letter "a", and the token
"apple" does not satisfy the required letter "A". -/
theorem contains_withletters_case_sensitive :
    contains_withletters (chars "Apple") (chars "a") = false ∧
    contains_withletters (chars "apple") (chars "A") = false := by
  set_option maxRecDepth 100000 in decide

/-- C2 (the claim fails): on the corpus "crane brown trace" with length 5, required
"a", forbidden "e" and pattern "_____", the candidate list is not the one word
"trace". -/
theorem populate_scenario_not_trace :
    (populate_wordlist [] (chars "crane brown trace") scenario_command
      (init_weightings 5)).wordList ≠ [chars "trace"] := by
  set_option maxRecDepth 100000 in decide

/-- C2 (amended): on the corpus "crane brown trace" with length 5, required "a",
forbidden "e" and pattern "_____", the candidate list is empty: "crane" and "trace"
both contain the forbidden letter, "brown" lacks the required one. -/
theorem populate_scenario_empty :
    (populate_wordlist [] (chars "crane brown trace") scenario_command
      (init_weightings 5)).wordList = [] := by
  set_option maxRecDepth 100000 in decide

theorem matches_pattern_loop_iff (pattern : List Int) :
    ∀ token : StringViewer, token.length = pattern.length →
      (matches_pattern_loop token pattern = true ↔
        ∀ i, i < pattern.length → pattern.getD i 0 ≠ 95 →
          token.getD i 0 = pattern.getD i 0) := by
  induction pattern with
  | nil => intro token _; simp [matches_pattern_loop]
  | cons p ps ih =>
    intro token hlen
    cases token with
    | nil => simp at hlen
    | cons t ts =>
      have hlen' : ts.length = ps.length := by simpa using hlen
      have key : (∀ i, i < (p :: ps).length → (p :: ps).getD i 0 ≠ 95 →
            (t :: ts).getD i 0 = (p :: ps).getD i 0) ↔
          ((p ≠ 95 → t = p) ∧
            ∀ i, i < ps.length → ps.getD i 0 ≠ 95 → ts.getD i 0 = ps.getD i 0) := by
        constructor
        · intro h
          refine ⟨fun hp => by simpa using h 0 (by simp) (by simpa using hp), ?_⟩
          intro i hi hne
          simpa using h (i + 1) (by simpa using hi) (by simpa using hne)
        · rintro ⟨h0, hs⟩ i hi hne
          cases i with
          | zero => simpa using h0 (by simpa using hne)
          | succ j => simpa using hs j (by simpa using hi) (by simpa using hne)
      rw [key, ← ih ts hlen']
      simp only [matches_pattern_loop]
      by_cases hp : p = 95
      · simp [hp]
      · by_cases hpt : p = t
        · simp [hp, hpt]
        · have htp : ¬ t = p := fun h => hpt h.symm
          simp [hp, hpt, htp]

/-- C3: `matches_pattern` is true exactly when the token and the pattern have the
same length and, at every position where the pattern char is not the wildcard
`'_'`, the token char equals the pattern char (no case folding); in particular it
is false for different lengths. -/
theorem matches_pattern_iff (token : StringViewer) (pattern : List Int) :
    matches_pattern token pattern = true ↔
      token.length = pattern.length ∧
      ∀ i, i < pattern.length → pattern.getD i 0 ≠ 95 →
        token.getD i 0 = pattern.getD i 0 := by
  unfold matches_pattern
  by_cases hlen : token.length = pattern.length
  · simp [hlen, matches_pattern_loop_iff pattern token hlen]
  · simp [hlen]

theorem contains_withoutLetters_eq_true (token : StringViewer) (withoutLetters : List Int) :
    contains_withoutLetters token withoutLetters = true ↔
      ∃ t ∈ token, ∃ f ∈ withoutLetters, tolower t = tolower f := by
  simp [contains_withoutLetters, List.any_eq_true]

theorem mem_populate_wordlist (content : StringViewer) (command : Command) (w : Weightings)
    (word : StringViewer)
    (h : word ∈ (populate_wordlist [] content command w).wordList) :
    word ∈ tokenize content ∧ accepts command word = true := by
  rw [populate_wordlist_wordList] at h
  simpa [List.mem_filter] using h

/-- C4: the forbidden-letters filter rejects a token exactly when some char of the
token and some char of the forbidden string are equal after `tolower`; hence, when
the filter is active, a word of the candidate list contains no char that lower-cases
to the same char as a forbidden letter, in either case. -/
theorem contains_withoutLetters_iff (token : StringViewer) (withoutLetters : List Int)
    (content : StringViewer) (command : Command) (w : Weightings) :
    (contains_withoutLetters token withoutLetters = true ↔
      ∃ t ∈ token, ∃ f ∈ withoutLetters, tolower t = tolower f) ∧
    (command.withoutLettersPresent = true →
      ∀ word ∈ (populate_wordlist [] content command w).wordList,
        ∀ f ∈ command.withoutLetters, ∀ c, tolower c = tolower f → c ∉ word) := by
  refine ⟨contains_withoutLetters_eq_true token withoutLetters, ?_⟩
  intro hpresent word hword f hf c hc hmem
  have hacc := (mem_populate_wordlist content command w word hword).2
  have hno := ((accepts_iff command word).mp hacc).2.2.1 hpresent
  have hyes : contains_withoutLetters word command.withoutLetters = true :=
    (contains_withoutLetters_eq_true word command.withoutLetters).mpr ⟨c, hmem, f, hf, hc⟩
  rw [hno] at hyes
  exact Bool.false_ne_true hyes

/-! ## Empty tokens -/

/-- C5 (evaluation at the failing input): for the corpus " " and target length 0,
with no other constraint, the candidate list holds one (empty) token although the
corpus has no whitespace-delimited word at all. -/
theorem populate_len0_blank_corpus :
    (populate_wordlist [] (chars " ") len0_command (init_weightings 0)).wordList = [[]] ∧
    (words (chars " ")).filter (fun word => word.length = len0_command.len) = [] := by
  set_option maxRecDepth 100000 in decide

/-- C6 (evaluation at the failing input): for the corpus "a  " the loop of
`populate_wordlist` produces the token "a" and then an empty token from the
remaining whitespace, and with target length 0 that empty token is the candidate. -/
theorem tokenize_emits_empty_token :
    tokenize (chars "a  ") = [chars "a", []] ∧
    words (chars "a  ") = [chars "a"] ∧
    (populate_wordlist [] (chars "a  ") len0_command (init_weightings 0)).wordList = [[]] := by
  set_option maxRecDepth 100000 in decide

/-! ## Output -/

theorem print_wordlist_loop_eq (wordList : StringViewers) :
    ∀ i, i ≤ 10 → print_wordlist_loop i wordList =
      ((wordList.take (10 - i)).map (fun word => word ++ [10])).flatten := by
  induction wordList with
  | nil => intro i _; simp [print_wordlist_loop]
  | cons word rest ih =>
    intro i hi
    unfold print_wordlist_loop
    by_cases h : i = 10
    · simp [h]
    · have h1 : 10 - i = (10 - (i + 1)) + 1 := by omega
      rw [if_neg h, ih (i + 1) (by omega), h1, List.take_succ_cons]
      simp

/-- C10: the chars written by `print_wordlist` are exactly the first `min 10 n`
words of the list of `n` words, in list order, each followed by a newline: all of
them when there are fewer than 10, the first 10 otherwise (so the first 10 of 15). -/
theorem print_wordlist_eq (wordList : StringViewers) :
    print_wordlist wordList =
      ((wordList.take (min 10 wordList.length)).map (fun word => word ++ [10])).flatten := by
  unfold print_wordlist
  rw [print_wordlist_loop_eq wordList 0 (by omega)]
  congr 2
  rw [Nat.sub_zero]
  by_cases h : 10 ≤ wordList.length
  · rw [Nat.min_eq_left h]
  · have h1 : wordList.length ≤ 10 := by omega
    rw [Nat.min_eq_right h1, List.take_of_length_le h1, List.take_of_length_le (le_refl _)]

/-! ## Sorting -/

theorem qsort_perm {α : Type} (compar : α → α → Int) (base : List α) :
    (qsort compar base).Perm base :=
  List.perm_insertionSort _ base

theorem qsort_eq_insertionSort {α : Type} (compar : α → α → Int) (r : α → α → Prop)
    [DecidableRel r] (base : List α)
    (h : ∀ a ∈ base, ∀ b ∈ base, (compar a b ≤ 0 ↔ r a b)) :
    qsort compar base = base.insertionSort r := by
  have key := List.map_insertionSort (fun a b => compar a b ≤ 0) r id base
    (fun a ha b hb => by simpa using h a ha b hb)
  simpa [qsort] using key

theorem qsort_sorted {α : Type} (compar : α → α → Int) (r : α → α → Prop)
    [DecidableRel r] [IsTotal α r] [IsTrans α r] (base : List α)
    (h : ∀ a ∈ base, ∀ b ∈ base, (compar a b ≤ 0 ↔ r a b)) :
    (qsort compar base).Pairwise r := by
  rw [qsort_eq_insertionSort compar r base h]
  exact List.sorted_insertionSort r base

theorem wrap32_of_range (x : Int) (h1 : -2147483648 ≤ x) (h2 : x ≤ 2147483647) :
    wrap32 x = x := by
  unfold wrap32
  omega

theorem compareWords_le_zero_iff (w : Weightings) (a b : StringViewer)
    (h1 : -2147483648 ≤ calculateWordScore b w - calculateWordScore a w)
    (h2 : calculateWordScore b w - calculateWordScore a w ≤ 2147483647) :
    compareWords w a b ≤ 0 ↔ calculateWordScore b w ≤ calculateWordScore a w := by
  unfold compareWords
  simp only
  rw [wrap32_of_range _ h1 h2]
  omega

theorem qsort_compareWords_sorted (wordList : StringViewers) (w : Weightings)
    (hrange : ∀ a ∈ wordList, ∀ b ∈ wordList,
      -2147483648 ≤ calculateWordScore b w - calculateWordScore a w ∧
        calculateWordScore b w - calculateWordScore a w ≤ 2147483647) :
    (qsort (compareWords w) wordList).Pairwise
      (fun a b => calculateWordScore b w ≤ calculateWordScore a w) := by
  haveI : IsTotal StringViewer
      (fun a b => calculateWordScore b w ≤ calculateWordScore a w) :=
    ⟨fun a b => le_total _ _⟩
  haveI : IsTrans StringViewer
      (fun a b => calculateWordScore b w ≤ calculateWordScore a w) :=
    ⟨fun a b c hab hbc => le_trans hbc hab⟩
  exact qsort_sorted (compareWords w)
    (fun a b => calculateWordScore b w ≤ calculateWordScore a w) wordList
    (fun a ha b hb =>
      compareWords_le_zero_iff w a b (hrange a ha b hb).1 (hrange a ha b hb).2)

theorem score_b_half_table : calculateWordScore (chars "b") half_table = 0 := by
  simp [calculateWordScore, score_loop, chars, tolower, letterFrequency, half_table,
    penalty_loop, incr_at, float_to_int, List.range, List.range.loop]

theorem score_a_half_table : calculateWordScore (chars "a") half_table = 4 := by
  simp [calculateWordScore, score_loop, chars, tolower, letterFrequency, half_table,
    penalty_loop, incr_at, float_to_int, List.range, List.range.loop]
  norm_num [Int.floor_eq_iff]

/-! ## Alphabetical order -/

theorem lex_cons_cons_iff (x y : Int) (xs ys : List Int) :
    List.Lex (· < ·) (x :: xs) (y :: ys) ↔ x < y ∨ (x = y ∧ List.Lex (· < ·) xs ys) := by
  constructor
  · intro h
    cases h with
    | cons h => exact Or.inr ⟨rfl, h⟩
    | rel h => exact Or.inl h
  · rintro (h | ⟨rfl, h⟩)
    · exact List.Lex.rel h
    · exact List.Lex.cons h

theorem alphabet_compare_sign (a : StringViewer) :
    ∀ b : StringViewer, a.length = b.length →
      (alphabet_compare a b < 0 ↔ List.Lex (· < ·) (lower a) (lower b)) ∧
      (alphabet_compare a b = 0 ↔ lower a = lower b) ∧
      (0 < alphabet_compare a b ↔ List.Lex (· < ·) (lower b) (lower a)) := by
  induction a with
  | nil =>
    intro b hlen
    have hb : b = [] := List.length_eq_zero.mp hlen.symm
    subst hb
    simp [alphabet_compare, lower, List.Lex.not_nil_right]
  | cons x xs ih =>
    intro b hlen
    cases b with
    | nil => simp at hlen
    | cons y ys =>
      have hlen' : xs.length = ys.length := by simpa using hlen
      obtain ⟨ih1, ih2, ih3⟩ := ih ys hlen'
      simp only [lower] at ih1 ih2 ih3
      simp only [alphabet_compare, lower, List.map_cons, lex_cons_cons_iff, List.cons.injEq]
      by_cases hc : tolower x = tolower y
      · simp [hc, ih1, ih2, ih3]
      · have hc' : ¬ tolower y = tolower x := fun h => hc h.symm
        simp only [ne_eq, hc, hc', not_false_eq_true, if_true, false_and, or_false]
        exact ⟨sub_neg, by simp [sub_eq_zero, hc], sub_pos⟩

theorem alphabet_compare_le_zero_iff (a b : StringViewer) (h : a.length = b.length) :
    alphabet_compare a b ≤ 0 ↔ lex_le (lower a) (lower b) := by
  obtain ⟨h1, h2, _⟩ := alphabet_compare_sign a b h
  unfold lex_le
  rw [← h1, ← h2]
  omega

theorem lex_le_total (x y : List Int) : lex_le x y ∨ lex_le y x := by
  unfold lex_le
  rcases trichotomous_of (List.Lex (· < · : Int → Int → Prop)) x y with h | h | h
  · exact Or.inl (Or.inr h)
  · exact Or.inl (Or.inl h)
  · exact Or.inr (Or.inr h)

theorem lex_le_trans (x y z : List Int) (hxy : lex_le x y) (hyz : lex_le y z) :
    lex_le x z := by
  unfold lex_le at *
  rcases hxy with rfl | hxy
  · exact hyz
  · rcases hyz with rfl | hyz
    · exact Or.inr hxy
    · exact Or.inr (IsTrans.trans (r := List.Lex (· < · : Int → Int → Prop)) _ _ _ hxy hyz)

theorem lex_le_antisymm (x y : List Int) (hxy : lex_le x y) (hyx : lex_le y x) : x = y := by
  unfold lex_le at *
  rcases hxy with h | hxy
  · exact h
  · rcases hyx with h | hyx
    · exact h.symm
    · exact absurd hyx (IsAsymm.asymm (r := List.Lex (· < · : Int → Int → Prop)) _ _ hxy)

theorem qsort_alphabet_sorted (wordList : StringViewers) (n : Nat)
    (hlen : ∀ a ∈ wordList, a.length = n) :
    (qsort alphabet_compare wordList).Pairwise (fun a b => lex_le (lower a) (lower b)) := by
  haveI : DecidableRel (fun a b : StringViewer => lex_le (lower a) (lower b)) :=
    Classical.decRel _
  haveI : IsTotal StringViewer (fun a b => lex_le (lower a) (lower b)) :=
    ⟨fun a b => lex_le_total _ _⟩
  haveI : IsTrans StringViewer (fun a b => lex_le (lower a) (lower b)) :=
    ⟨fun a b c hab hbc => lex_le_trans _ _ _ hab hbc⟩
  exact qsort_sorted alphabet_compare (fun a b => lex_le (lower a) (lower b)) wordList
    (fun a ha b hb => alphabet_compare_le_zero_iff a b ((hlen a ha).trans (hlen b hb).symm))

/-- C9: for every candidate list of tokens of one length, `sort_wordlist` under the
alphabetical policy (`isAlpha` set, `isBest` clear) returns a permutation of the
list that is non-decreasing in the lexicographic order of the lower-cased words; and
for two such tokens `alphabet_compare` is negative, zero or positive exactly when
the lower-cased first word is lexicographically less than, equal to, or greater than
the lower-cased second word. -/
theorem sort_wordlist_alpha_sorted (wordList : StringViewers) (command : Command)
    (w : Weightings) (n : Nat) (halpha : command.isAlpha = true)
    (hbest : command.isBest = false) (hlen : ∀ a ∈ wordList, a.length = n) :
    (sort_wordlist wordList command w).Perm wordList ∧
    (sort_wordlist wordList command w).Pairwise (fun a b => lex_le (lower a) (lower b)) ∧
    ∀ a ∈ wordList, ∀ b ∈ wordList,
      (alphabet_compare a b < 0 ↔ List.Lex (· < ·) (lower a) (lower b)) ∧
      (alphabet_compare a b = 0 ↔ lower a = lower b) ∧
      (0 < alphabet_compare a b ↔ List.Lex (· < ·) (lower b) (lower a)) := by
  have hsort : sort_wordlist wordList command w = qsort alphabet_compare wordList := by
    simp [sort_wordlist, hbest, halpha]
  rw [hsort]
  exact ⟨qsort_perm _ _, qsort_alphabet_sorted wordList n hlen,
    fun a ha b hb => alphabet_compare_sign a b ((hlen a ha).trans (hlen b hb).symm)⟩

/-- C9 at the list "pear", "Kiwi", "kale". -/
theorem sort_wordlist_alpha_sorted_witness :
    (sort_wordlist [chars "pear", chars "Kiwi", chars "kale"] alpha_command
        (init_weightings 4)).Perm [chars "pear", chars "Kiwi", chars "kale"] ∧
    (sort_wordlist [chars "pear", chars "Kiwi", chars "kale"] alpha_command
        (init_weightings 4)).Pairwise (fun a b => lex_le (lower a) (lower b)) ∧
    ∀ a ∈ [chars "pear", chars "Kiwi", chars "kale"],
      ∀ b ∈ [chars "pear", chars "Kiwi", chars "kale"],
        (alphabet_compare a b < 0 ↔ List.Lex (· < ·) (lower a) (lower b)) ∧
        (alphabet_compare a b = 0 ↔ lower a = lower b) ∧
        (0 < alphabet_compare a b ↔ List.Lex (· < ·) (lower b) (lower a)) :=
  sort_wordlist_alpha_sorted [chars "pear", chars "Kiwi", chars "kale"] alpha_command
    (init_weightings 4) 4 rfl rfl (by decide)

/-! ## Alphabetical ranking and the order of the corpus -/

theorem map_eq_map_of_inj_on {α β : Type} (f : α → β) :
    ∀ l₁ l₂ : List α, l₁.map f = l₂.map f →
      (∀ a ∈ l₁, ∀ b ∈ l₂, f a = f b → a = b) → l₁ = l₂ := by
  intro l₁
  induction l₁ with
  | nil =>
    intro l₂ h _
    cases l₂ with
    | nil => rfl
    | cons b bs => simp at h
  | cons a as ih =>
    intro l₂ h hinj
    cases l₂ with
    | nil => simp at h
    | cons b bs =>
      simp only [List.map_cons, List.cons.injEq] at h
      have hab : a = b := hinj a (List.mem_cons_self _ _) b (List.mem_cons_self _ _) h.1
      have hrest : as = bs :=
        ih bs h.2 (fun x hx y hy hxy =>
          hinj x (List.mem_cons_of_mem _ hx) y (List.mem_cons_of_mem _ hy) hxy)
      rw [hab, hrest]

theorem ranked_wordlist_alpha (content : StringViewer) (command : Command)
    (halpha : command.isAlpha = true) (hbest : command.isBest = false) :
    ranked_wordlist content command =
      qsort alphabet_compare ((tokenize content).filter (accepts command)) := by
  simp [ranked_wordlist, sort_wordlist, halpha, hbest, populate_wordlist_wordList]

theorem length_of_accepts (command : Command) (content : StringViewer) :
    ∀ a ∈ (tokenize content).filter (accepts command), a.length = command.len := by
  intro a ha
  exact ((accepts_iff command a).mp (List.mem_filter.mp ha).2).1

/-- C8 (the claim fails): the corpora "Apple apple" and "apple Apple" have token
sequences that are permutations of one another, yet under the alphabetical policy
their ranked candidate lists differ: each keeps its own corpus order, since the two
words compare equal. -/
theorem alpha_ranking_depends_on_corpus_order :
    (tokenize (chars "Apple apple")).Perm (tokenize (chars "apple Apple")) ∧
    ranked_wordlist (chars "Apple apple") alpha_command ≠
      ranked_wordlist (chars "apple Apple") alpha_command := by
  refine ⟨?_, ?_⟩
  · have h1 : tokenize (chars "Apple apple") = [chars "Apple", chars "apple"] := by decide
    have h2 : tokenize (chars "apple Apple") = [chars "apple", chars "Apple"] := by decide
    rw [h1, h2]
    exact List.Perm.swap _ _ _
  · set_option maxRecDepth 100000 in decide

/-- C8 (amended): for two corpora whose token sequences are permutations of one
another and the same constraints, the ranked candidate lists under the alphabetical
policy (`isAlpha` set, `isBest` clear) are the same sequence of words after
lower-casing; and they are the same byte for byte whenever no two candidates differ
only in the case of their letters. -/
theorem alpha_ranking_invariant (content₁ content₂ : StringViewer) (command : Command)
    (halpha : command.isAlpha = true) (hbest : command.isBest = false)
    (hperm : (tokenize content₁).Perm (tokenize content₂)) :
    (ranked_wordlist content₁ command).map lower =
        (ranked_wordlist content₂ command).map lower ∧
    ((∀ a ∈ ranked_wordlist content₁ command, ∀ b ∈ ranked_wordlist content₁ command,
        lower a = lower b → a = b) →
      ranked_wordlist content₁ command = ranked_wordlist content₂ command) := by
  rw [ranked_wordlist_alpha content₁ command halpha hbest,
    ranked_wordlist_alpha content₂ command halpha hbest]
  have hl : ((tokenize content₁).filter (accepts command)).Perm
      ((tokenize content₂).filter (accepts command)) := hperm.filter _
  have hp : (qsort alphabet_compare ((tokenize content₁).filter (accepts command))).Perm
      (qsort alphabet_compare ((tokenize content₂).filter (accepts command))) :=
    (qsort_perm _ _).trans (hl.trans (qsort_perm _ _).symm)
  have hs₁ := qsort_alphabet_sorted _ command.len (length_of_accepts command content₁)
  have hs₂ := qsort_alphabet_sorted _ command.len (length_of_accepts command content₂)
  haveI : IsAntisymm (List Int) lex_le := ⟨lex_le_antisymm⟩
  have hmap : (qsort alphabet_compare ((tokenize content₁).filter (accepts command))).map lower =
      (qsort alphabet_compare ((tokenize content₂).filter (accepts command))).map lower :=
    List.eq_of_perm_of_sorted (hp.map lower) (List.pairwise_map.mpr hs₁)
      (List.pairwise_map.mpr hs₂)
  refine ⟨hmap, fun hinj => ?_⟩
  exact map_eq_map_of_inj_on lower _ _ hmap
    (fun a ha b hb hab => hinj a ha b (hp.symm.subset hb) hab)

/-- The amended C8 at the corpora "peach Melon mango" and "mango peach Melon". -/
theorem alpha_ranking_invariant_witness :
    (ranked_wordlist (chars "peach Melon mango") alpha_command).map lower =
        (ranked_wordlist (chars "mango peach Melon") alpha_command).map lower ∧
    ((∀ a ∈ ranked_wordlist (chars "peach Melon mango") alpha_command,
        ∀ b ∈ ranked_wordlist (chars "peach Melon mango") alpha_command,
        lower a = lower b → a = b) →
      ranked_wordlist (chars "peach Melon mango") alpha_command =
        ranked_wordlist (chars "mango peach Melon") alpha_command) :=
  alpha_ranking_invariant (chars "peach Melon mango") (chars "mango peach Melon")
    alpha_command rfl rfl
    (by
      have h1 : tokenize (chars "peach Melon mango") =
          [chars "peach", chars "Melon", chars "mango"] := by decide
      have h2 : tokenize (chars "mango peach Melon") =
          [chars "mango", chars "peach", chars "Melon"] := by decide
      rw [h1, h2]
      exact @List.perm_append_comm _ [chars "peach", chars "Melon"] [chars "mango"])

/-! ## The score as a sum and a penalty -/

theorem isalpha_iff_tolower (c : Int) :
    isalpha c = true ↔ (97 ≤ tolower c ∧ tolower c ≤ 122) := by
  unfold isalpha tolower
  split_ifs with h
  · simp only [Bool.or_eq_true, Bool.and_eq_true, decide_eq_true_eq]; omega
  · simp only [Bool.or_eq_true, Bool.and_eq_true, decide_eq_true_eq]; omega

theorem letter_index_lt (c : Int) (h : isalpha c = true) : letter_index c < 26 := by
  have := (isalpha_iff_tolower c).mp h
  unfold letter_index
  omega

theorem letter_index_eq_iff (c : Int) (l : Nat) (h : isalpha c = true) :
    l = letter_index c ↔ tolower c = 97 + (l : Int) := by
  have := (isalpha_iff_tolower c).mp h
  unfold letter_index
  omega

theorem score_loop_fst (w : Weightings) (cs : List Int) :
    ∀ (i : Nat) (acc : ℚ × List Int),
      (score_loop w i cs acc).1 =
        acc.1 + ∑ k ∈ Finset.range cs.length, letter_term w (i + k) (cs.getD k 0) := by
  induction cs with
  | nil => intro i acc; simp [score_loop]
  | cons c cs ih =>
    intro i acc
    rw [List.length_cons, Finset.sum_range_succ']
    simp only [score_loop]
    by_cases hc : isalpha c = true
    · have h := (isalpha_iff_tolower c).mp hc
      rw [if_pos h, ih]
      simp only [letter_term, hc, List.getD_cons_succ, List.getD_cons_zero, if_true,
        Nat.add_zero, letter_index]
      simp only [Nat.add_assoc, Nat.add_comm 1]
      ring
    · have h : ¬ (97 ≤ tolower c ∧ tolower c ≤ 122) := fun h => hc ((isalpha_iff_tolower c).mpr h)
      rw [if_neg h, ih]
      simp only [letter_term, hc, List.getD_cons_succ, List.getD_cons_zero, Nat.add_zero]
      simp only [Nat.add_assoc, Nat.add_comm 1]
      simp

theorem score_loop_snd_length (w : Weightings) (cs : List Int) :
    ∀ (i : Nat) (acc : ℚ × List Int), (score_loop w i cs acc).2.length = acc.2.length := by
  induction cs with
  | nil => intro i acc; simp [score_loop]
  | cons c cs ih =>
    intro i acc
    simp only [score_loop]
    split_ifs
    · rw [ih, incr_at_length]
    · rw [ih]

theorem score_loop_snd (w : Weightings) (cs : List Int) :
    ∀ (i : Nat) (acc : ℚ × List Int) (l : Nat), l < 26 → acc.2.length = 26 →
      (score_loop w i cs acc).2.getD l 0 = acc.2.getD l 0 + (occurrences cs l : Int) := by
  induction cs with
  | nil => intro i acc l _ _; simp [score_loop, occurrences]
  | cons c cs ih =>
    intro i acc l hl hlen
    simp only [score_loop]
    by_cases hc : isalpha c = true
    · have h := (isalpha_iff_tolower c).mp hc
      have hlt : (tolower c - 97).toNat < acc.2.length := by rw [hlen]; omega
      rw [if_pos h, ih _ _ l hl (by rw [incr_at_length]; exact hlen),
        incr_at_getD _ _ _ hlt]
      have hiff := letter_index_eq_iff c l hc
      unfold letter_index at hiff
      unfold occurrences
      rw [List.countP_cons]
      by_cases hl' : tolower c = 97 + (l : Int)
      · have hidx := hiff.mpr hl'
        rw [if_pos hidx]
        simp [hl']
        ring
      · have hne : ¬ l = (tolower c - 97).toNat := fun h => hl' (hiff.mp h)
        rw [if_neg hne]
        simp [hl']
    · have h : ¬ (97 ≤ tolower c ∧ tolower c ≤ 122) :=
        fun h => hc ((isalpha_iff_tolower c).mpr h)
      rw [if_neg h, ih _ _ l hl hlen]
      have hl' : ¬ tolower c = 97 + (l : Int) := by omega
      unfold occurrences
      rw [List.countP_cons]
      simp [hl']

theorem foldl_penalty (cond : Nat → Prop) [DecidablePred cond] (g : Nat → ℚ) (l : List Nat) :
    ∀ s : ℚ, l.foldl (fun s i => if cond i then s - g i else s) s =
      s - (l.map (fun i => if cond i then g i else 0)).sum := by
  induction l with
  | nil => intro s; simp
  | cons a l ih =>
    intro s
    rw [List.foldl_cons, ih]
    by_cases h : cond a
    · simp [h]; ring
    · simp [h]

theorem penalty_loop_eq (letterCount : List Int) (score : ℚ) :
    penalty_loop letterCount score =
      score - ∑ l ∈ Finset.range 26,
        (if letterCount.getD l 0 > 1 then (((letterCount.getD l 0 - 1) * 2 : Int) : ℚ) else 0) := by
  unfold penalty_loop
  rw [foldl_penalty (fun i => letterCount.getD i 0 > 1)
    (fun i => (((letterCount.getD i 0 - 1) * 2 : Int) : ℚ))]
  rfl

theorem calculateWordScore_float_to_int (word : List Int) (w : Weightings) :
    calculateWordScore word w = float_to_int (weighted_sum word w - (penalty word : ℚ)) := by
  have hS : (score_loop w 0 word (0, List.replicate 26 0)).1 = weighted_sum word w := by
    rw [score_loop_fst]
    simp [weighted_sum]
  have hP : (∑ l ∈ Finset.range 26,
      (if (score_loop w 0 word (0, List.replicate 26 0)).2.getD l 0 > 1 then
        ((((score_loop w 0 word (0, List.replicate 26 0)).2.getD l 0 - 1) * 2 : Int) : ℚ)
      else 0)) = (penalty word : ℚ) := by
    unfold penalty
    rw [Int.cast_sum]
    apply Finset.sum_congr rfl
    intro l hl
    have hl' : l < 26 := Finset.mem_range.mp hl
    have hzero : (List.replicate 26 (0 : Int)).getD l 0 = 0 := by
      rw [List.getD_eq_getElem?_getD, List.getElem?_replicate]
      rw [if_pos hl']
      rfl
    rw [score_loop_snd w word 0 _ l hl' (List.length_replicate _ _)]
    simp only [hzero, zero_add]
    by_cases h1 : 1 < occurrences word l
    · have h2 : (occurrences word l : Int) > 1 := by omega
      rw [if_pos h2, if_pos h1]
      push_cast
      ring
    · have h2 : ¬ (occurrences word l : Int) > 1 := by omega
      rw [if_neg h2, if_neg h1]
      simp
  unfold calculateWordScore
  simp only
  rw [penalty_loop_eq, hS, hP]

/-- With exact arithmetic `calculateWordScore` is the truncation toward zero of
`S − P`, where `S` sums `letterFrequency[letter] ×
table[letter][i]` over the positions `i` that hold an ASCII letter (in either case)
and `P` sums `2 × (k − 1)` over the letters that occur `k > 1` times in the word. -/
theorem calculateWordScore_eq (word : List Int) (w : Weightings) :
    calculateWordScore word w =
      (if 0 ≤ weighted_sum word w - (penalty word : ℚ)
        then ⌊weighted_sum word w - (penalty word : ℚ)⌋
        else ⌈weighted_sum word w - (penalty word : ℚ)⌉) := by
  rw [calculateWordScore_float_to_int]
  rfl

/-! ## The score under an all-zero table -/

theorem float_to_int_intCast (z : Int) : float_to_int (z : ℚ) = z := by
  unfold float_to_int
  split_ifs
  · exact Int.floor_intCast z
  · exact Int.ceil_intCast z

theorem weighted_sum_zero_table (word : List Int) (w : Weightings)
    (hw : ∀ r j, 0 ≤ r → r < 26 → j < word.length → w r j = 0) :
    weighted_sum word w = 0 := by
  unfold weighted_sum
  apply Finset.sum_eq_zero
  intro i hi
  unfold letter_term
  split_ifs with hc
  · have hlt := letter_index_lt _ hc
    rw [hw _ i (by omega) (by omega) (Finset.mem_range.mp hi), mul_zero]
  · rfl

theorem score_zero_table (word : List Int) (w : Weightings)
    (hw : ∀ r j, 0 ≤ r → r < 26 → j < word.length → w r j = 0) :
    calculateWordScore word w = - penalty word := by
  rw [calculateWordScore_float_to_int, weighted_sum_zero_table word w hw, zero_sub,
    ← Int.cast_neg, float_to_int_intCast]

theorem penalty_eq_zero_iff (word : List Int) :
    penalty word = 0 ↔ ∀ l, l < 26 → occurrences word l ≤ 1 := by
  unfold penalty
  rw [Finset.sum_eq_zero_iff_of_nonneg]
  · constructor
    · intro h l hl
      have := h l (Finset.mem_range.mpr hl)
      by_contra hcon
      rw [if_pos (by omega)] at this
      omega
    · intro h l hl
      have := h l (Finset.mem_range.mp hl)
      rw [if_neg (by omega)]
  · intro l _
    split_ifs <;> omega

theorem penalty_apple : penalty (chars "apple") = 2 := by
  decide

/-- C12 (the claim fails): under the all-zero table the word "apple", in which the
letter p occurs twice, scores -2, not 0. -/
theorem score_apple_zero_table :
    calculateWordScore (chars "apple") (init_weightings 5) = -2 ∧
    calculateWordScore (chars "apple") (init_weightings 5) ≠ 0 := by
  have h := score_zero_table (chars "apple") (init_weightings 5) (fun _ _ _ _ _ => rfl)
  rw [penalty_apple] at h
  rw [h]
  exact ⟨rfl, by decide⟩

/-- C12 (amended): when every cell of the weighting table is zero,
`calculateWordScore` returns minus the repeated-letter penalty: `2 × (k − 1)`
subtracted for every letter that occurs `k > 1` times, so 0 exactly for the words in
which no letter occurs twice. -/
theorem calculateWordScore_zero_table (word : List Int) (w : Weightings)
    (hw : ∀ r j, 0 ≤ r → r < 26 → j < word.length → w r j = 0) :
    calculateWordScore word w = - penalty word ∧
    (calculateWordScore word w = 0 ↔ ∀ l, l < 26 → occurrences word l ≤ 1) := by
  have h := score_zero_table word w hw
  refine ⟨h, ?_⟩
  rw [h, neg_eq_zero]
  exact penalty_eq_zero_iff word

/-- The amended C12 at the word "apple" and the table of `init_weightings`. -/
theorem calculateWordScore_zero_table_witness :
    calculateWordScore (chars "apple") (init_weightings 5) = - penalty (chars "apple") ∧
    (calculateWordScore (chars "apple") (init_weightings 5) = 0 ↔
      ∀ l, l < 26 → occurrences (chars "apple") l ≤ 1) :=
  calculateWordScore_zero_table (chars "apple") (init_weightings 5) (fun _ _ _ _ _ => rfl)

/-! ## Bounds on the score -/

theorem letterFrequency_bounds (idx : Nat) :
    0 ≤ letterFrequency.getD idx 0 ∧ letterFrequency.getD idx 0 ≤ 13 := by
  rcases Nat.lt_or_ge idx 26 with h | h
  · interval_cases idx <;> simp [letterFrequency]
  · have hnone : letterFrequency.getD idx 0 = 0 := by
      rw [List.getD_eq_getElem?_getD, List.getElem?_eq_none (by simpa [letterFrequency] using h)]
      rfl
    rw [hnone]
    omega

theorem letter_term_bounds (w : Weightings) (L i : Nat) (c : Int) (hi : i < L)
    (hw : ∀ r j, 0 ≤ r → r < 26 → j < L → 0 ≤ w r j ∧ w r j ≤ 1) :
    0 ≤ letter_term w i c ∧ letter_term w i c ≤ 13 := by
  unfold letter_term
  split_ifs with hc
  · have hlt := letter_index_lt c hc
    obtain ⟨hw0, hw1⟩ := hw (letter_index c) i (by omega) (by omega) hi
    obtain ⟨hf0, hf1⟩ := letterFrequency_bounds (letter_index c)
    have hf0' : (0 : ℚ) ≤ (letterFrequency.getD (letter_index c) 0 : ℚ) := by exact_mod_cast hf0
    have hf1' : (letterFrequency.getD (letter_index c) 0 : ℚ) ≤ 13 := by exact_mod_cast hf1
    constructor
    · exact mul_nonneg hf0' hw0
    · calc (letterFrequency.getD (letter_index c) 0 : ℚ) * w (letter_index c) i
          ≤ 13 * 1 := mul_le_mul hf1' hw1 hw0 (by norm_num)
        _ = 13 := by norm_num
  · norm_num

theorem weighted_sum_bounds (word : List Int) (w : Weightings)
    (hw : ∀ r j, 0 ≤ r → r < 26 → j < word.length → 0 ≤ w r j ∧ w r j ≤ 1) :
    0 ≤ weighted_sum word w ∧ weighted_sum word w ≤ 13 * (word.length : ℚ) := by
  unfold weighted_sum
  constructor
  · apply Finset.sum_nonneg
    intro i hi
    exact (letter_term_bounds w word.length i _ (Finset.mem_range.mp hi) hw).1
  · calc ∑ i ∈ Finset.range word.length, letter_term w i (word.getD i 0)
        ≤ ∑ _i ∈ Finset.range word.length, (13 : ℚ) :=
          Finset.sum_le_sum (fun i hi =>
            (letter_term_bounds w word.length i _ (Finset.mem_range.mp hi) hw).2)
      _ = 13 * (word.length : ℚ) := by
          rw [Finset.sum_const, Finset.card_range, nsmul_eq_mul]
          ring

theorem penalty_nonneg (word : List Int) : 0 ≤ penalty word := by
  unfold penalty
  apply Finset.sum_nonneg
  intro l _
  split_ifs <;> omega

theorem sum_letter_indicator_le_one (c : Int) :
    (∑ l ∈ Finset.range 26, (if tolower c = 97 + (l : Int) then (1 : Int) else 0)) ≤ 1 := by
  by_cases h : 97 ≤ tolower c
  · have hconv : ∀ l ∈ Finset.range 26,
        (if tolower c = 97 + (l : Int) then (1 : Int) else 0) =
          (if (tolower c - 97).toNat = l then 1 else 0) := by
      intro l _
      by_cases hl : tolower c = 97 + (l : Int)
      · rw [if_pos hl, if_pos (by omega)]
      · rw [if_neg hl, if_neg (by omega)]
    rw [Finset.sum_congr rfl hconv, Finset.sum_ite_eq]
    split_ifs <;> omega
  · have hzero : ∀ l ∈ Finset.range 26,
        (if tolower c = 97 + (l : Int) then (1 : Int) else 0) = 0 := by
      intro l _
      rw [if_neg (by omega)]
    rw [Finset.sum_congr rfl hzero, Finset.sum_const_zero]
    omega

theorem penalty_cons_le (c : Int) (cs : List Int) :
    penalty (c :: cs) ≤ penalty cs + 2 := by
  unfold penalty
  have hpoint : ∀ l ∈ Finset.range 26,
      (if 1 < occurrences (c :: cs) l then 2 * ((occurrences (c :: cs) l : Int) - 1) else 0) ≤
        (if 1 < occurrences cs l then 2 * ((occurrences cs l : Int) - 1) else 0) +
          2 * (if tolower c = 97 + (l : Int) then (1 : Int) else 0) := by
    intro l _
    have hocc : occurrences (c :: cs) l =
        occurrences cs l + (if tolower c = 97 + (l : Int) then 1 else 0) := by
      unfold occurrences
      rw [List.countP_cons]
      simp
    rw [hocc]
    by_cases hl : tolower c = 97 + (l : Int)
    · simp only [hl, if_true]
      split_ifs <;> push_cast <;> omega
    · simp only [hl, if_false, Nat.add_zero]
      omega
  calc ∑ l ∈ Finset.range 26,
        (if 1 < occurrences (c :: cs) l then 2 * ((occurrences (c :: cs) l : Int) - 1) else 0)
      ≤ ∑ l ∈ Finset.range 26,
          ((if 1 < occurrences cs l then 2 * ((occurrences cs l : Int) - 1) else 0) +
            2 * (if tolower c = 97 + (l : Int) then (1 : Int) else 0)) :=
        Finset.sum_le_sum hpoint
    _ = (∑ l ∈ Finset.range 26,
          (if 1 < occurrences cs l then 2 * ((occurrences cs l : Int) - 1) else 0)) +
          2 * ∑ l ∈ Finset.range 26, (if tolower c = 97 + (l : Int) then (1 : Int) else 0) := by
        rw [Finset.sum_add_distrib, Finset.mul_sum]
    _ ≤ _ := by
        have := sum_letter_indicator_le_one c
        omega

theorem penalty_le (word : List Int) (h : 1 ≤ word.length) :
    penalty word ≤ 2 * ((word.length : Int) - 1) := by
  induction word with
  | nil => simp at h
  | cons c cs ih =>
    cases cs with
    | nil =>
      have hzero : penalty [c] = 0 := by
        rw [penalty_eq_zero_iff]
        intro l _
        unfold occurrences
        rw [List.countP_cons]
        simp only [List.countP_nil, Nat.zero_add]
        split_ifs <;> omega
      rw [hzero]
      simp
    | cons d ds =>
      have h1 := ih (by simp)
      have h2 := penalty_cons_le c (d :: ds)
      simp only [List.length_cons] at h1 ⊢
      push_cast at h1 ⊢
      omega

theorem float_to_int_bounds (q : ℚ) (a b : Int) (ha : (a : ℚ) ≤ q) (hb : q ≤ (b : ℚ)) :
    a ≤ float_to_int q ∧ float_to_int q ≤ b := by
  unfold float_to_int
  split_ifs
  · exact ⟨Int.le_floor.mpr ha, Int.cast_le.mp (le_trans (Int.floor_le q) hb)⟩
  · exact ⟨Int.cast_le.mp (le_trans ha (Int.le_ceil q)), Int.ceil_le.mpr hb⟩

theorem score_bounds (word : List Int) (w : Weightings) (h : 1 ≤ word.length)
    (hw : ∀ r j, 0 ≤ r → r < 26 → j < word.length → 0 ≤ w r j ∧ w r j ≤ 1) :
    -2 * ((word.length : Int) - 1) ≤ calculateWordScore word w ∧
    calculateWordScore word w ≤ 13 * (word.length : Int) := by
  rw [calculateWordScore_float_to_int]
  obtain ⟨hS0, hS1⟩ := weighted_sum_bounds word w hw
  have hP0 : (0 : ℚ) ≤ (penalty word : ℚ) := by exact_mod_cast penalty_nonneg word
  have hP1 : (penalty word : ℚ) ≤ 2 * ((word.length : ℚ) - 1) := by
    exact_mod_cast penalty_le word h
  apply float_to_int_bounds
  · push_cast
    linarith
  · push_cast
    linarith

theorem half_table_bounds (r : Int) (j : Nat) : 0 ≤ half_table r j ∧ half_table r j ≤ 1 := by
  unfold half_table
  split_ifs <;> norm_num

theorem update_weightings_loop_apply (token : StringViewer) :
    ∀ (w : Weightings) (i : Nat) (r : Int) (j : Nat),
      update_weightings_loop w i token r j =
        w r j + (if i ≤ j ∧ j < i + token.length ∧ tolower (token.getD (j - i) 0) - 97 = r
          then 1 else 0) := by
  induction token with
  | nil =>
    intro w i r j
    have h : ¬ (i ≤ j ∧ j < i + ([] : List Int).length ∧
        tolower (([] : List Int).getD (j - i) 0) - 97 = r) := by
      simp only [List.length_nil]; omega
    rw [if_neg h]
    simp [update_weightings_loop]
  | cons c cs ih =>
    intro w i r j
    simp only [update_weightings_loop]
    rw [ih]
    unfold cell_incr
    have hiff : (i ≤ j ∧ j < i + (c :: cs).length ∧
          tolower ((c :: cs).getD (j - i) 0) - 97 = r) ↔
        ((r = tolower c - 97 ∧ j = i) ∨
          (i + 1 ≤ j ∧ j < i + 1 + cs.length ∧
            tolower (cs.getD (j - (i + 1)) 0) - 97 = r)) := by
      rcases Nat.lt_trichotomy j i with hlt | heq | hgt
      · constructor
        · intro h; omega
        · rintro (h | h) <;> omega
      · subst heq
        simp only [Nat.sub_self, List.getD_cons_zero, List.length_cons]
        constructor
        · intro h; exact Or.inl ⟨h.2.2.symm, trivial⟩
        · rintro (h | h)
          · exact ⟨le_refl _, by omega, h.1.symm⟩
          · omega
      · have hsub : j - i = (j - (i + 1)) + 1 := by omega
        rw [hsub, List.getD_cons_succ, List.length_cons]
        constructor
        · intro h; exact Or.inr ⟨by omega, by omega, h.2.2⟩
        · rintro (h | h)
          · omega
          · exact ⟨by omega, by omega, h.2.2⟩
    simp only [hiff]
    split_ifs <;> first | ring1 | (exfalso; tauto) | omega

/-- What `update_weightings` does, for every token: the cell in row
`tolower(c) - 'a'` is incremented for the char `c` of every position, letter or not;
no other cell changes. -/
theorem update_weightings_apply (w : Weightings) (token : StringViewer) (r : Int) (j : Nat) :
    update_weightings w token r j =
      w r j + (if j < token.length ∧ tolower (token.getD j 0) - 97 = r then 1 else 0) := by
  unfold update_weightings
  rw [update_weightings_loop_apply]
  by_cases h : j < token.length ∧ tolower (token.getD j 0) - 97 = r
  · rw [if_pos h, if_pos ⟨Nat.zero_le _, by omega, by simpa using h.2⟩]
  · rw [if_neg h, if_neg (fun h' => h ⟨by omega, by simpa using h'.2.2⟩)]

/-- C14 (evaluation at the failing input): for the token "it's" the apostrophe at
position 2 makes `update_weightings` increment the cell of row `'\'' - 'a' = -58`,
outside the 26 rows of the table. -/
theorem update_weightings_apostrophe :
    tolower 39 - 97 = -58 ∧
    update_weightings (init_weightings 4) (chars "it's") (-58) 2 =
      init_weightings 4 (-58) 2 + 1 := by
  refine ⟨by decide, ?_⟩
  rw [update_weightings_apply]
  have h : (2 < (chars "it's").length ∧ tolower ((chars "it's").getD 2 0) - 97 = -58) := by
    decide
  rw [if_pos h]

theorem populate_step_weightings (command : Command) (st : PopulateState) :
    (populate_step command st).weightings =
      if (split_word (trim_left st.content)).1.length = command.len
      then update_weightings st.weightings (split_word (trim_left st.content)).1
      else st.weightings := by
  unfold populate_step
  simp only
  split_ifs <;> first | rfl | (exfalso; omega)

theorem populate_step_weighting_words (command : Command) (st : PopulateState) :
    (populate_step command st).weighting_words =
      if (split_word (trim_left st.content)).1.length = command.len
      then st.weighting_words + 1 else st.weighting_words := by
  unfold populate_step
  simp only
  split_ifs <;> first | rfl | (exfalso; omega)

theorem position_count_cons (token : StringViewer) (tokens : List StringViewer)
    (r : Int) (j : Nat) :
    position_count (token :: tokens) r j =
      position_count tokens r j +
        (if j < token.length ∧ tolower (token.getD j 0) - 97 = r then 1 else 0) := by
  unfold position_count
  rw [List.countP_cons]
  simp only [Bool.and_eq_true, decide_eq_true_eq]

theorem populate_loop_weightings (command : Command) (fuel : Nat) :
    ∀ (st : PopulateState) (r : Int) (j : Nat),
      (populate_loop command fuel st).weightings r j =
        st.weightings r j +
          (position_count
            ((tokens_loop fuel st.content).filter (fun token => token.length = command.len))
            r j : ℚ) := by
  induction fuel with
  | zero => intro st r j; simp [populate_loop, tokens_loop, position_count]
  | succ n ih =>
    intro st r j
    unfold populate_loop tokens_loop
    split_ifs with h
    · rw [ih, populate_step_weightings, populate_step_content, List.filter_cons]
      by_cases hlen : (split_word (trim_left st.content)).1.length = command.len
      · rw [if_pos hlen, if_pos (by simpa using hlen), update_weightings_apply,
          position_count_cons]
        push_cast
        ring
      · rw [if_neg hlen, if_neg (by simpa using hlen)]
    · simp [position_count]

theorem populate_loop_weighting_words (command : Command) (fuel : Nat) :
    ∀ st : PopulateState,
      (populate_loop command fuel st).weighting_words =
        st.weighting_words +
          (((tokens_loop fuel st.content).filter
            (fun token => token.length = command.len)).length : Int) := by
  induction fuel with
  | zero => intro st; simp [populate_loop, tokens_loop]
  | succ n ih =>
    intro st
    unfold populate_loop tokens_loop
    split_ifs with h
    · rw [ih, populate_step_weighting_words, populate_step_content, List.filter_cons]
      by_cases hlen : (split_word (trim_left st.content)).1.length = command.len
      · rw [if_pos hlen, if_pos (by simpa using hlen), List.length_cons]
        push_cast
        ring
      · rw [if_neg hlen, if_neg (by simpa using hlen)]
    · simp

/-- The table `populate_wordlist` leaves: every cell of the initial table plus
the number of tokens of the target length that index it, the cells of the 26 rows
and `len` columns then divided by the number of those tokens. -/
theorem populate_wordlist_weightings (wordList : StringViewers) (content : StringViewer)
    (command : Command) (w : Weightings) :
    (populate_wordlist wordList content command w).weightings =
      normalise_weightings
        (fun r j => w r j + (position_count (length_tokens content command.len) r j : ℚ))
        ((length_tokens content command.len).length : ℚ) command.len := by
  funext r j
  unfold populate_wordlist normalise_weightings
  simp only
  rw [populate_loop_weightings, populate_loop_weighting_words]
  simp [length_tokens, tokenize]

theorem populate_wordlist_weighting_words (wordList : StringViewers) (content : StringViewer)
    (command : Command) (w : Weightings) :
    (populate_wordlist wordList content command w).weighting_words =
      ((length_tokens content command.len).length : Int) := by
  unfold populate_wordlist
  simp only
  rw [populate_loop_weighting_words]
  simp [length_tokens, tokenize]

/-- C15: the weighting table `populate_wordlist` produces depends on the corpus and
the target length only: two runs on the same corpus with the same target length
(whatever their required letters, forbidden letters, pattern and ranking flags)
yield equal tables; and when at least one token has the target length, each cell of
the table built from the zeroed table is the number of those tokens with that letter
at that position divided by the number of those tokens. -/
theorem weightings_independent_of_constraints (content : StringViewer)
    (command₁ command₂ : Command) (wordList₁ wordList₂ : StringViewers) (w : Weightings)
    (hlen : command₁.len = command₂.len) :
    (populate_wordlist wordList₁ content command₁ w).weightings =
        (populate_wordlist wordList₂ content command₂ w).weightings ∧
    (1 ≤ (length_tokens content command₁.len).length →
      ∀ (r : Int) (j : Nat), 0 ≤ r → r < 26 → j < command₁.len →
        (populate_wordlist wordList₁ content command₁
            (init_weightings command₁.len)).weightings r j =
          (position_count (length_tokens content command₁.len) r j : ℚ) /
            ((length_tokens content command₁.len).length : ℚ)) := by
  refine ⟨?_, ?_⟩
  · rw [populate_wordlist_weightings, populate_wordlist_weightings, hlen]
  · intro _ r j h0 h26 hj
    rw [populate_wordlist_weightings]
    unfold normalise_weightings init_weightings
    rw [if_pos ⟨h0, h26, hj⟩]
    simp only [zero_add]

/-- C15 at the corpus "crane brown trace", for the scenario command and the command
without constraints. -/
theorem weightings_independent_of_constraints_witness :
    (populate_wordlist [] (chars "crane brown trace") scenario_command
        (init_weightings 5)).weightings =
      (populate_wordlist [] (chars "crane brown trace") init_command
        (init_weightings 5)).weightings ∧
    (1 ≤ (length_tokens (chars "crane brown trace") scenario_command.len).length →
      ∀ (r : Int) (j : Nat), 0 ≤ r → r < 26 → j < scenario_command.len →
        (populate_wordlist [] (chars "crane brown trace") scenario_command
            (init_weightings scenario_command.len)).weightings r j =
          (position_count (length_tokens (chars "crane brown trace") scenario_command.len)
              r j : ℚ) /
            ((length_tokens (chars "crane brown trace") scenario_command.len).length : ℚ)) :=
  weightings_independent_of_constraints (chars "crane brown trace") scenario_command
    init_command [] [] (init_weightings 5) rfl

/-! ## Column sums of the weighting table -/

theorem sum_row_indicator (c : Int) (hc : isalpha c = true) :
    (∑ r ∈ Finset.range 26, (if tolower c - 97 = (r : Int) then (1 : ℚ) else 0)) = 1 := by
  have hlt := letter_index_lt c hc
  have hconv : ∀ r ∈ Finset.range 26,
      (if tolower c - 97 = (r : Int) then (1 : ℚ) else 0) =
        (if letter_index c = r then 1 else 0) := by
    intro r _
    have hiff := letter_index_eq_iff c r hc
    by_cases hr : tolower c - 97 = (r : Int)
    · rw [if_pos hr, if_pos (hiff.mpr (by omega)).symm]
    · rw [if_neg hr, if_neg (fun h => hr (by have := hiff.mp h.symm; omega))]
  rw [Finset.sum_congr rfl hconv, Finset.sum_ite_eq, if_pos (Finset.mem_range.mpr hlt)]

theorem sum_position_count (pos : Nat) (tokens : List StringViewer)
    (h : ∀ token ∈ tokens, pos < token.length ∧ isalpha (token.getD pos 0) = true) :
    (∑ r ∈ Finset.range 26, (position_count tokens (r : Int) pos : ℚ)) =
      (tokens.length : ℚ) := by
  induction tokens with
  | nil => simp [position_count]
  | cons token tokens ih =>
    obtain ⟨hlt, hc⟩ := h token (List.mem_cons_self _ _)
    have ih' := ih (fun t ht => h t (List.mem_cons_of_mem _ ht))
    have hstep : ∀ r ∈ Finset.range 26,
        (position_count (token :: tokens) (r : Int) pos : ℚ) =
          (position_count tokens (r : Int) pos : ℚ) +
            (if tolower (token.getD pos 0) - 97 = (r : Int) then (1 : ℚ) else 0) := by
      intro r _
      rw [position_count_cons]
      by_cases hr : tolower (token.getD pos 0) - 97 = (r : Int)
      · rw [if_pos ⟨hlt, hr⟩, if_pos hr]
        push_cast
        ring
      · rw [if_neg (fun h' => hr h'.2), if_neg hr]
        push_cast
        ring
    rw [Finset.sum_congr rfl hstep, Finset.sum_add_distrib, ih', sum_row_indicator _ hc,
      List.length_cons]
    push_cast
    ring

theorem length_tokens_hello : length_tokens (chars "hello") len3_command.len = [] := by
  decide

/-- C13 (evaluation at the failing input): for the corpus "hello" and target length
3 no token is accumulated, so when the loop of `populate_wordlist` ends the count is
0 and every cell still holds 0; `normalise_weightings` then divides every cell of the
26 rows and 3 columns by that count, which in C is `0.0f / 0.0f`. -/
theorem normalise_zero_count :
    (populate_wordlist [] (chars "hello") len3_command (init_weightings 3)).weighting_words = 0 ∧
    (∀ (r : Int) (j : Nat),
      (populate_loop len3_command (chars "hello").length
        { wordList := [], content := chars "hello", weighting_words := 0,
          weightings := init_weightings 3 }).weightings r j = 0) ∧
    normalise_divides_by_zero
      ((populate_wordlist [] (chars "hello") len3_command
        (init_weightings 3)).weighting_words : ℚ) len3_command.len = true := by
  have hcount : (populate_wordlist [] (chars "hello") len3_command
      (init_weightings 3)).weighting_words = 0 := by
    rw [populate_wordlist_weighting_words, length_tokens_hello]
    rfl
  refine ⟨hcount, ?_, ?_⟩
  · intro r j
    have htokens : (tokens_loop (chars "hello").length (chars "hello")).filter
        (fun token => token.length = len3_command.len) = [] := by decide
    rw [populate_loop_weightings]
    simp only [htokens]
    simp [position_count, init_weightings]
  · rw [hcount]
    simp [normalise_divides_by_zero, len3_command, init_command]

/-- The half of the column-sum property that holds with exact arithmetic: for every
corpus and target length `L` such that every token of length `L` consists of ASCII
letters only and at least one token has length `L`, after `populate_wordlist` has
accumulated and normalised the table from the zeroed table, the cells of the 26
letters at every position `pos < L` sum to 1. -/
theorem column_sum_eq_one (content : StringViewer) (command : Command)
    (wordList : StringViewers) (pos : Nat)
    (hletters : ∀ token ∈ length_tokens content command.len,
      ∀ c ∈ token, isalpha c = true)
    (hcount : 1 ≤ (length_tokens content command.len).length)
    (hpos : pos < command.len) :
    (∑ r ∈ Finset.range 26,
      (populate_wordlist wordList content command (init_weightings command.len)).weightings
        (r : Int) pos) = 1 := by
  have hcell : ∀ r ∈ Finset.range 26,
      (populate_wordlist wordList content command (init_weightings command.len)).weightings
          (r : Int) pos =
        (position_count (length_tokens content command.len) (r : Int) pos : ℚ) /
          ((length_tokens content command.len).length : ℚ) := by
    intro r hr
    have hr' : r < 26 := Finset.mem_range.mp hr
    rw [populate_wordlist_weightings]
    unfold normalise_weightings init_weightings
    rw [if_pos ⟨by omega, by omega, hpos⟩]
    simp only [zero_add]
  have htokens : ∀ token ∈ length_tokens content command.len,
      pos < token.length ∧ isalpha (token.getD pos 0) = true := by
    intro token htoken
    have hlen : token.length = command.len := by
      have := (List.mem_filter.mp htoken).2
      simpa using this
    have hlt : pos < token.length := by omega
    refine ⟨hlt, hletters token htoken _ ?_⟩
    rw [List.getD_eq_getElem _ _ hlt]
    exact List.getElem_mem _
  have hN : ((length_tokens content command.len).length : ℚ) ≠ 0 := by
    have : (1 : ℚ) ≤ ((length_tokens content command.len).length : ℚ) := by
      exact_mod_cast hcount
    linarith
  rw [Finset.sum_congr rfl hcell, ← Finset.sum_div, sum_position_count pos _ htokens,
    div_self hN]

/-- The column sum at the corpus "crane brown trace", target length 5, position 0. -/
theorem column_sum_eq_one_witness :
    (∑ r ∈ Finset.range 26,
      (populate_wordlist [] (chars "crane brown trace") init_command
        (init_weightings init_command.len)).weightings (r : Int) 0) = 1 :=
  column_sum_eq_one (chars "crane brown trace") init_command [] 0
    (by decide) (by decide) (by decide)

/-! ## Command line validation -/

theorem is_command_valid_loop_exclusive (n : Nat) :
    ∀ (args : List (List Int)) (command : Command), args.length ≤ n →
      ¬ (command.isAlpha = true ∧ command.isBest = true) →
      ¬ ((is_command_valid_loop args command).2.isAlpha = true ∧
        (is_command_valid_loop args command).2.isBest = true) := by
  induction n with
  | zero =>
    intro args command hlen hinv
    have hnil : args = [] := List.length_eq_zero.mp (Nat.le_zero.mp hlen)
    subst hnil
    simpa [is_command_valid_loop] using hinv
  | succ n ih =>
    intro args command hlen hinv
    rcases args with _ | ⟨arg, rest⟩
    · simpa [is_command_valid_loop] using hinv
    · have hrest : rest.length ≤ n := by simpa using hlen
      rcases rest with _ | ⟨arg2, rest'⟩
      · simp only [is_command_valid_loop]
        split_ifs <;> first | exact hinv | simp_all
      · have hrest' : rest'.length ≤ n := by simp at hrest; omega
        simp only [is_command_valid_loop]
        split_ifs <;>
          first
          | exact hinv
          | (apply ih _ _ hrest; simp_all)
          | (apply ih _ _ hrest'; simp_all)

theorem flag_count_cons_alpha (rest : List (List Int)) :
    flag_count (chars "-alpha" :: rest) = flag_count rest + 1 := by
  have h : ¬ (chars "-alpha" = chars "-best") := by decide
  unfold flag_count
  simp only [List.count_cons, beq_self_eq_true, if_true, beq_iff_eq, h, if_false]
  omega

theorem flag_count_cons_best (rest : List (List Int)) :
    flag_count (chars "-best" :: rest) = flag_count rest + 1 := by
  have h : ¬ (chars "-best" = chars "-alpha") := by decide
  unfold flag_count
  simp only [List.count_cons, beq_self_eq_true, if_true, beq_iff_eq, h, if_false]
  omega

theorem flag_count_cons_of_ne (arg : List Int) (rest : List (List Int))
    (h1 : ¬ arg = chars "-alpha") (h2 : ¬ arg = chars "-best") :
    flag_count (arg :: rest) = flag_count rest := by
  unfold flag_count
  simp only [List.count_cons, beq_iff_eq, h1, h2, if_false, Nat.add_zero]

theorem not_flag_of_digits (arg : List Int) (h : arg.all isdigit = true) :
    ¬ arg = chars "-alpha" ∧ ¬ arg = chars "-best" := by
  constructor
  · intro he
    rw [he] at h
    exact absurd h (by decide)
  · intro he
    rw [he] at h
    exact absurd h (by decide)

theorem not_flag_of_letters (arg : List Int) (h : arg.all isalpha = true) :
    ¬ arg = chars "-alpha" ∧ ¬ arg = chars "-best" := by
  constructor
  · intro he
    rw [he] at h
    exact absurd h (by decide)
  · intro he
    rw [he] at h
    exact absurd h (by decide)

theorem not_flag_nil :
    ¬ ([] : List Int) = chars "-alpha" ∧ ¬ ([] : List Int) = chars "-best" := by
  decide

theorem flag_count_nil_le (command : Command) :
    flag_count [] + (if command.isAlpha = true ∨ command.isBest = true then 1 else 0) ≤ 1 := by
  simp only [flag_count, List.count_nil]
  split_ifs <;> omega

theorem is_command_valid_loop_flags (n : Nat) :
    ∀ (args : List (List Int)) (command : Command), args.length ≤ n →
      (is_command_valid_loop args command).1 = true →
      flag_count args +
        (if command.isAlpha = true ∨ command.isBest = true then 1 else 0) ≤ 1 := by
  induction n with
  | zero =>
    intro args command hlen _
    have hnil : args = [] := List.length_eq_zero.mp (Nat.le_zero.mp hlen)
    subst hnil
    exact flag_count_nil_le command
  | succ n ih =>
    intro args command hlen hvalid
    rcases args with _ | ⟨arg, rest⟩
    · exact flag_count_nil_le command
    · have hrest : rest.length ≤ n := by simpa using hlen
      rw [is_command_valid_loop.eq_def] at hvalid
      simp only at hvalid
      by_cases hA : arg = chars "-alpha"
      · subst hA
        rw [if_pos rfl] at hvalid
        by_cases hset : command.isBest = true ∨ command.isAlpha = true
        · rw [if_pos hset] at hvalid
          exact absurd hvalid (by simp)
        · rw [if_neg hset] at hvalid
          have h := ih rest _ hrest hvalid
          rw [if_pos (Or.inl rfl)] at h
          rw [flag_count_cons_alpha, if_neg (fun h' => hset h'.symm)]
          omega
      · rw [if_neg hA] at hvalid
        by_cases hB : arg = chars "-best"
        · subst hB
          rw [if_pos rfl] at hvalid
          by_cases hset : command.isAlpha = true ∨ command.isBest = true
          · rw [if_pos hset] at hvalid
            exact absurd hvalid (by simp)
          · rw [if_neg hset] at hvalid
            have h := ih rest _ hrest hvalid
            rw [if_pos (Or.inr rfl)] at h
            rw [flag_count_cons_best, if_neg hset]
            omega
        · rw [if_neg hB] at hvalid
          rw [flag_count_cons_of_ne arg rest hA hB]
          by_cases hL : arg = chars "-len"
          · rw [if_pos hL] at hvalid
            rcases rest with _ | ⟨arg2, rest'⟩
            · exact flag_count_nil_le command
            · have hrest' : rest'.length ≤ n := by simp at hrest; omega
              simp only at hvalid
              by_cases hp : command.lenPresent = true
              · rw [if_pos hp] at hvalid
                exact absurd hvalid (by simp)
              · rw [if_neg hp] at hvalid
                by_cases hd : arg2.all isdigit = true
                · rw [if_pos hd] at hvalid
                  have h := ih rest' _ hrest' hvalid
                  rw [flag_count_cons_of_ne arg2 rest' (not_flag_of_digits arg2 hd).1
                    (not_flag_of_digits arg2 hd).2]
                  exact h
                · rw [if_neg hd] at hvalid
                  exact absurd hvalid (by simp)
          · rw [if_neg hL] at hvalid
            by_cases hW : arg = chars "-with"
            · rw [if_pos hW] at hvalid
              rcases rest with _ | ⟨arg2, rest'⟩
              · exact flag_count_nil_le command
              · have hrest' : rest'.length ≤ n := by simp at hrest; omega
                simp only at hvalid
                by_cases hp : command.withLettersPresent = true
                · rw [if_pos hp] at hvalid
                  exact absurd hvalid (by simp)
                · rw [if_neg hp] at hvalid
                  by_cases he : arg2 = []
                  · rw [if_pos he] at hvalid
                    have h := ih rest' _ hrest' hvalid
                    rw [he, flag_count_cons_of_ne [] rest' not_flag_nil.1 not_flag_nil.2]
                    exact h
                  · rw [if_neg he] at hvalid
                    by_cases hd : arg2.all isalpha = true
                    · rw [if_pos hd] at hvalid
                      have h := ih rest' _ hrest' hvalid
                      rw [flag_count_cons_of_ne arg2 rest' (not_flag_of_letters arg2 hd).1
                        (not_flag_of_letters arg2 hd).2]
                      exact h
                    · rw [if_neg hd] at hvalid
                      exact absurd hvalid (by simp)
            · rw [if_neg hW] at hvalid
              by_cases hWo : arg = chars "-without"
              · rw [if_pos hWo] at hvalid
                rcases rest with _ | ⟨arg2, rest'⟩
                · exact flag_count_nil_le command
                · have hrest' : rest'.length ≤ n := by simp at hrest; omega
                  simp only at hvalid
                  by_cases hp : command.withoutLettersPresent = true
                  · rw [if_pos hp] at hvalid
                    exact absurd hvalid (by simp)
                  · rw [if_neg hp] at hvalid
                    by_cases he : arg2 = []
                    · rw [if_pos he] at hvalid
                      have h := ih rest' _ hrest' hvalid
                      rw [he, flag_count_cons_of_ne [] rest' not_flag_nil.1 not_flag_nil.2]
                      exact h
                    · rw [if_neg he] at hvalid
                      by_cases hd : arg2.all isalpha = true
                      · rw [if_pos hd] at hvalid
                        have h := ih rest' _ hrest' hvalid
                        rw [flag_count_cons_of_ne arg2 rest' (not_flag_of_letters arg2 hd).1
                          (not_flag_of_letters arg2 hd).2]
                        exact h
                      · rw [if_neg hd] at hvalid
                        exact absurd hvalid (by simp)
              · rw [if_neg hWo] at hvalid
                by_cases hP : command.patternPresent = false ∧ arg.head? ≠ some 45
                · rw [if_pos hP] at hvalid
                  have h := ih rest _ hrest hvalid
                  exact h
                · rw [if_neg hP] at hvalid
                  exact absurd hvalid (by simp)

theorem is_command_valid_flags (argv : List (List Int))
    (h : (is_command_valid argv init_command).1 = true) : flag_count argv.tail ≤ 1 := by
  unfold is_command_valid at h
  by_cases h9 : argv.length > 9
  · rw [if_pos h9] at h
    exact absurd h (by simp)
  · rw [if_neg h9] at h
    by_cases h1 : argv.length = 1
    · have htail : argv.tail = [] := by
        rcases argv with _ | ⟨a, rest⟩
        · rfl
        · have : rest.length = 0 := by simpa using h1
          simpa using List.length_eq_zero.mp this
      rw [htail]
      simp [flag_count]
    · rw [if_neg h1] at h
      have hf := is_command_valid_loop_flags argv.tail.length argv.tail init_command (le_refl _) h
      have hinit : ¬ (init_command.isAlpha = true ∨ init_command.isBest = true) := by decide
      rw [if_neg hinit] at hf
      omega

theorem is_command_valid_not_both (argv : List (List Int)) :
    ¬ ((is_command_valid argv init_command).2.isAlpha = true ∧
      (is_command_valid argv init_command).2.isBest = true) := by
  unfold is_command_valid
  split_ifs
  · decide
  · decide
  · exact is_command_valid_loop_exclusive argv.tail.length argv.tail init_command (le_refl _)
      (by decide)

/-- C16: starting from the command of `init_command`, whenever `is_command_valid`
returns true `isAlpha` and `isBest` are not both set; and an argument list that holds
both `-alpha` and `-best`, or one of them twice, among its arguments is rejected. -/
theorem is_command_valid_exclusive (argv : List (List Int)) :
    ((is_command_valid argv init_command).1 = true →
      ¬ ((is_command_valid argv init_command).2.isAlpha = true ∧
        (is_command_valid argv init_command).2.isBest = true)) ∧
    (chars "-alpha" ∈ argv.tail → chars "-best" ∈ argv.tail →
      (is_command_valid argv init_command).1 = false) ∧
    (2 ≤ argv.tail.count (chars "-alpha") →
      (is_command_valid argv init_command).1 = false) ∧
    (2 ≤ argv.tail.count (chars "-best") →
      (is_command_valid argv init_command).1 = false) := by
  refine ⟨fun _ => is_command_valid_not_both argv, ?_, ?_, ?_⟩
  · intro ha hb
    by_contra hne
    have hf := is_command_valid_flags argv (by simpa using hne)
    have h1 := List.one_le_count_iff.mpr ha
    have h2 := List.one_le_count_iff.mpr hb
    unfold flag_count at hf
    omega
  · intro h2
    by_contra hne
    have hf := is_command_valid_flags argv (by simpa using hne)
    unfold flag_count at hf
    omega
  · intro h2
    by_contra hne
    have hf := is_command_valid_flags argv (by simpa using hne)
    unfold flag_count at hf
    omega

/-! ## Pattern validation -/

theorem is_valid_pattern_fst (command : Command) :
    (is_valid_pattern command).1 = true ↔
      command.pattern.length = command.len ∧
        ∀ c ∈ command.pattern, isalpha c = true ∨ c = 95 := by
  unfold is_valid_pattern
  by_cases hlen : command.len ≠ command.pattern.length
  · rw [if_pos hlen]
    constructor
    · intro h; exact absurd h (by simp)
    · intro h; exact absurd h.1.symm hlen
  · rw [if_neg hlen]
    have hlen' : command.pattern.length = command.len := (not_not.mp hlen).symm
    by_cases hnil : command.pattern = []
    · rw [if_pos hnil]
      have h0 : 0 = command.len := by rw [← hlen', hnil]; rfl
      simp [hnil, h0]
    · rw [if_neg hnil]
      have hall : (command.pattern.all (fun c => isalpha c || isunderscore c) = true) ↔
          ∀ c ∈ command.pattern, isalpha c = true ∨ c = 95 := by
        simp [List.all_eq_true, isunderscore]
      by_cases h : command.pattern.all (fun c => isalpha c || isunderscore c) = true
      · rw [if_pos h]
        exact ⟨fun _ => ⟨hlen', hall.mp h⟩, fun _ => rfl⟩
      · rw [if_neg h]
        constructor
        · intro h'; exact absurd h' (by simp)
        · intro h'; exact absurd (hall.mpr h'.2) h

theorem is_valid_pattern_snd (command : Command) :
    (is_valid_pattern command).2.pattern = command.pattern ∧
    (is_valid_pattern command).2.len = command.len := by
  unfold is_valid_pattern
  split_ifs <;> exact ⟨rfl, rfl⟩

/-- C17: `is_valid_pattern` returns true exactly when the length of the pattern is
the target length and every char of the pattern is an ASCII letter or the wildcard
`'_'`; consequently the command `main` hands to `run_command`, when its
`patternPresent` is still set, has a pattern whose length is the target length. -/
theorem is_valid_pattern_iff (command : Command) (argv : List (List Int)) (run : Command) :
    ((is_valid_pattern command).1 = true ↔
      command.pattern.length = command.len ∧
        ∀ c ∈ command.pattern, isalpha c = true ∨ c = 95) ∧
    (main_command argv = Except.ok run → run.patternPresent = true →
      run.pattern.length = run.len) := by
  refine ⟨is_valid_pattern_fst command, ?_⟩
  intro hrun hpresent
  unfold main_command at hrun
  by_cases hv : (is_command_valid argv init_command).1 = false
  · rw [if_pos hv] at hrun
    exact absurd hrun (by simp)
  · rw [if_neg hv] at hrun
    by_cases hp : (is_command_valid argv init_command).2.patternPresent = true
    · rw [if_pos hp] at hrun
      by_cases hvp : (is_valid_pattern (is_command_valid argv init_command).2).1 = false
      · rw [if_pos hvp] at hrun
        exact absurd hrun (by simp)
      · rw [if_neg hvp] at hrun
        have heq : (is_valid_pattern (is_command_valid argv init_command).2).2 = run := by
          simpa using hrun
        have htrue : (is_valid_pattern (is_command_valid argv init_command).2).1 = true := by
          simpa using hvp
        have hlen := ((is_valid_pattern_fst _).mp htrue).1
        obtain ⟨h1, h2⟩ := is_valid_pattern_snd (is_command_valid argv init_command).2
        rw [← heq, h1, h2]
        exact hlen
    · rw [if_neg hp] at hrun
      have heq : (is_command_valid argv init_command).2 = run := by simpa using hrun
      rw [heq] at hp
      exact absurd hpresent hp

/-! ## Termination of the tokenizing loop -/

theorem trim_left_eq_drop (s : StringViewer) :
    trim_left_i s ≤ s.length ∧ trim_left s = s.drop (trim_left_i s) := by
  induction s with
  | nil => simp [trim_left_i, trim_left]
  | cons c cs ih =>
    unfold trim_left_i trim_left
    split_ifs
    · exact ⟨by simpa using ih.1, by simpa using ih.2⟩
    · simp

theorem split_word_eq_take_drop (s : StringViewer) :
    split_word_i s ≤ s.length ∧
    (split_word s).1 = s.take (split_word_i s) ∧
    (if split_word_i s < s.length then split_word_i s + 1 else split_word_i s) ≤ s.length ∧
    (split_word s).2 =
      s.drop (if split_word_i s < s.length then split_word_i s + 1 else split_word_i s) := by
  induction s with
  | nil => simp [split_word_i, split_word]
  | cons c cs ih =>
    obtain ⟨h1, h2, h3, h4⟩ := ih
    unfold split_word_i split_word
    by_cases hc : isspace c = true
    · simp [hc]
    · simp only [hc, if_false, List.length_cons, List.take_succ_cons, Nat.add_lt_add_iff_right,
        Bool.false_eq_true]
      refine ⟨by omega, by rw [h2], ?_, ?_⟩
      · split_ifs at h3 ⊢ <;> omega
      · rw [h4]
        split_ifs <;> simp

theorem populate_iterations_le (command : Command) (fuel : Nat) :
    ∀ st : PopulateState, populate_iterations command fuel st ≤ st.content.length := by
  induction fuel with
  | zero => intro st; simp [populate_iterations]
  | succ n ih =>
    intro st
    unfold populate_iterations
    split_ifs with h
    · have h1 := ih (populate_step command st)
      rw [populate_step_content] at h1
      have h2 := split_trim_length_lt st.content h
      omega
    · omega

theorem populate_loop_fuel (command : Command) (fuel₁ : Nat) :
    ∀ (fuel₂ : Nat) (st : PopulateState), st.content.length ≤ fuel₁ →
      st.content.length ≤ fuel₂ →
      populate_loop command fuel₁ st = populate_loop command fuel₂ st := by
  induction fuel₁ with
  | zero =>
    intro fuel₂ st h1 _
    have hnil : ¬ st.content.length > 0 := by omega
    cases fuel₂ with
    | zero => rfl
    | succ m => simp [populate_loop, hnil]
  | succ n ih =>
    intro fuel₂ st h1 h2
    by_cases h : st.content.length > 0
    · cases fuel₂ with
      | zero => omega
      | succ m =>
        have hlt := split_trim_length_lt st.content h
        simp only [populate_loop, h, if_true]
        apply ih
        · rw [populate_step_content]; omega
        · rw [populate_step_content]; omega
    · cases fuel₂ with
      | zero => simp [populate_loop, h]
      | succ m => simp [populate_loop, h]

/-- C19: the tokenizing loop of `populate_wordlist` terminates. An iteration entered
with a non-empty view leaves a strictly shorter view; the amounts `trim_left` and
`split_word` subtract from the length never exceed it (the views they leave are the
input without its first `i`, respectively `i` or `i + 1`, chars); the loop runs at
most as many iterations as the view has chars; and once it has been allowed that
many it has reached its exit, whatever more it is allowed. -/
theorem populate_loop_terminates (command : Command) (st : PopulateState) (fuel : Nat) :
    (0 < st.content.length →
      (populate_step command st).content.length < st.content.length) ∧
    (trim_left_i st.content ≤ st.content.length ∧
      trim_left st.content = st.content.drop (trim_left_i st.content)) ∧
    ((if split_word_i (trim_left st.content) < (trim_left st.content).length
        then split_word_i (trim_left st.content) + 1
        else split_word_i (trim_left st.content)) ≤ (trim_left st.content).length ∧
      (split_word (trim_left st.content)).2 =
        (trim_left st.content).drop
          (if split_word_i (trim_left st.content) < (trim_left st.content).length
            then split_word_i (trim_left st.content) + 1
            else split_word_i (trim_left st.content))) ∧
    populate_iterations command fuel st ≤ st.content.length ∧
    (st.content.length ≤ fuel →
      (populate_loop command fuel st).content = [] ∧
      populate_loop command fuel st = populate_loop command st.content.length st) := by
  refine ⟨?_, trim_left_eq_drop st.content, ?_, populate_iterations_le command fuel st, ?_⟩
  · intro h
    rw [populate_step_content]
    exact split_trim_length_lt st.content h
  · obtain ⟨_, _, h3, h4⟩ := split_word_eq_take_drop (trim_left st.content)
    exact ⟨h3, h4⟩
  · intro h
    exact ⟨populate_loop_content command fuel st h,
      populate_loop_fuel command fuel st.content.length st h (le_refl _)⟩

/-! ## The argument of `-len` -/

/-- What one accepted iteration of the loop of `is_command_valid` has read: either
one argument that is not `-len`, or a flag with its argument, which for `-len` is
made of digits only and for the other flags is empty or made of letters only. -/
theorem is_command_valid_loop_step (arg : List Int) (rest : List (List Int))
    (command : Command) (hvalid : (is_command_valid_loop (arg :: rest) command).1 = true) :
    (¬ arg = chars "-len" ∧
      ∃ command', (is_command_valid_loop rest command').1 = true) ∨
    (∃ arg2 rest' command', rest = arg2 :: rest' ∧
      (is_command_valid_loop rest' command').1 = true ∧
      (arg2.all isdigit = true ∨ arg2 = [] ∨ arg2.all isalpha = true) ∧
      (arg = chars "-len" → arg2.all isdigit = true)) := by
  rw [is_command_valid_loop.eq_def] at hvalid
  simp only at hvalid
  by_cases hA : arg = chars "-alpha"
  · rw [if_pos hA] at hvalid
    have hne : ¬ arg = chars "-len" := by rw [hA]; decide
    by_cases hset : command.isBest = true ∨ command.isAlpha = true
    · rw [if_pos hset] at hvalid
      exact absurd hvalid (by simp)
    · rw [if_neg hset] at hvalid
      exact Or.inl ⟨hne, _, hvalid⟩
  · rw [if_neg hA] at hvalid
    by_cases hB : arg = chars "-best"
    · rw [if_pos hB] at hvalid
      have hne : ¬ arg = chars "-len" := by rw [hB]; decide
      by_cases hset : command.isAlpha = true ∨ command.isBest = true
      · rw [if_pos hset] at hvalid
        exact absurd hvalid (by simp)
      · rw [if_neg hset] at hvalid
        exact Or.inl ⟨hne, _, hvalid⟩
    · rw [if_neg hB] at hvalid
      by_cases hL : arg = chars "-len"
      · rw [if_pos hL] at hvalid
        rcases rest with _ | ⟨arg2, rest'⟩
        · exact absurd hvalid (by simp)
        · simp only at hvalid
          by_cases hp : command.lenPresent = true
          · rw [if_pos hp] at hvalid
            exact absurd hvalid (by simp)
          · rw [if_neg hp] at hvalid
            by_cases hd : arg2.all isdigit = true
            · rw [if_pos hd] at hvalid
              exact Or.inr ⟨arg2, rest', _, rfl, hvalid, Or.inl hd, fun _ => hd⟩
            · rw [if_neg hd] at hvalid
              exact absurd hvalid (by simp)
      · rw [if_neg hL] at hvalid
        by_cases hW : arg = chars "-with"
        · rw [if_pos hW] at hvalid
          rcases rest with _ | ⟨arg2, rest'⟩
          · exact absurd hvalid (by simp)
          · simp only at hvalid
            by_cases hp : command.withLettersPresent = true
            · rw [if_pos hp] at hvalid
              exact absurd hvalid (by simp)
            · rw [if_neg hp] at hvalid
              by_cases he : arg2 = []
              · rw [if_pos he] at hvalid
                exact Or.inr ⟨arg2, rest', _, rfl, hvalid, Or.inr (Or.inl he),
                  fun h => absurd h hL⟩
              · rw [if_neg he] at hvalid
                by_cases hd : arg2.all isalpha = true
                · rw [if_pos hd] at hvalid
                  exact Or.inr ⟨arg2, rest', _, rfl, hvalid, Or.inr (Or.inr hd),
                    fun h => absurd h hL⟩
                · rw [if_neg hd] at hvalid
                  exact absurd hvalid (by simp)
        · rw [if_neg hW] at hvalid
          by_cases hWo : arg = chars "-without"
          · rw [if_pos hWo] at hvalid
            rcases rest with _ | ⟨arg2, rest'⟩
            · exact absurd hvalid (by simp)
            · simp only at hvalid
              by_cases hp : command.withoutLettersPresent = true
              · rw [if_pos hp] at hvalid
                exact absurd hvalid (by simp)
              · rw [if_neg hp] at hvalid
                by_cases he : arg2 = []
                · rw [if_pos he] at hvalid
                  exact Or.inr ⟨arg2, rest', _, rfl, hvalid, Or.inr (Or.inl he),
                    fun h => absurd h hL⟩
                · rw [if_neg he] at hvalid
                  by_cases hd : arg2.all isalpha = true
                  · rw [if_pos hd] at hvalid
                    exact Or.inr ⟨arg2, rest', _, rfl, hvalid, Or.inr (Or.inr hd),
                      fun h => absurd h hL⟩
                  · rw [if_neg hd] at hvalid
                    exact absurd hvalid (by simp)
          · rw [if_neg hWo] at hvalid
            by_cases hP : command.patternPresent = false ∧ arg.head? ≠ some 45
            · rw [if_pos hP] at hvalid
              exact Or.inl ⟨hL, _, hvalid⟩
            · rw [if_neg hP] at hvalid
              exact absurd hvalid (by simp)

theorem len_flag_not_argument (arg2 : List Int)
    (h : arg2.all isdigit = true ∨ arg2 = [] ∨ arg2.all isalpha = true) :
    ¬ arg2 = chars "-len" := by
  intro he
  rw [he] at h
  revert h
  decide

/-- In an accepted argument list every `-len` is followed by an argument made of
decimal digits only. -/
theorem is_command_valid_loop_len (n : Nat) :
    ∀ (args : List (List Int)) (command : Command), args.length ≤ n →
      (is_command_valid_loop args command).1 = true →
      ∀ (pre post : List (List Int)), args = pre ++ chars "-len" :: post →
        ∃ lenArg rest, post = lenArg :: rest ∧ lenArg.all isdigit = true := by
  induction n with
  | zero =>
    intro args command hlen _ pre post hargs
    have hnil : args = [] := List.length_eq_zero.mp (Nat.le_zero.mp hlen)
    rw [hnil] at hargs
    exact absurd hargs (by simp)
  | succ n ih =>
    intro args command hlen hvalid pre post hargs
    rcases args with _ | ⟨arg, rest⟩
    · exact absurd hargs (by simp)
    · have hrest : rest.length ≤ n := by simpa using hlen
      rcases is_command_valid_loop_step arg rest command hvalid with
        ⟨hne, command', hv⟩ | ⟨arg2, rest', command', hrest_eq, hv, hkind, hdigits⟩
      · rcases pre with _ | ⟨p, pre'⟩
        · simp only [List.nil_append, List.cons.injEq] at hargs
          exact absurd hargs.1 hne
        · simp only [List.cons_append, List.cons.injEq] at hargs
          exact ih rest command' hrest hv pre' post hargs.2
      · subst hrest_eq
        have hrest' : rest'.length ≤ n := by simp at hrest; omega
        rcases pre with _ | ⟨p, pre'⟩
        · simp only [List.nil_append, List.cons.injEq] at hargs
          exact ⟨arg2, rest', hargs.2.symm, hdigits hargs.1⟩
        · simp only [List.cons_append, List.cons.injEq] at hargs
          rcases pre' with _ | ⟨q, pre''⟩
          · simp only [List.nil_append, List.cons.injEq] at hargs
            exact absurd hargs.2.1 (len_flag_not_argument arg2 hkind)
          · simp only [List.cons_append, List.cons.injEq] at hargs
            exact ih rest' command' hrest' hv pre'' post hargs.2.2

/-- The part of C18 that holds: an argument list in which some `-len` is the last
argument, or is followed by an argument with a char that is not a decimal digit, is
rejected. -/
theorem is_command_valid_len_rejected (argv : List (List Int)) (command : Command)
    (pre post : List (List Int)) (hargs : argv.tail = pre ++ chars "-len" :: post)
    (hpost : post = [] ∨ ∃ lenArg rest, post = lenArg :: rest ∧ ∃ c ∈ lenArg, isdigit c = false) :
    (is_command_valid argv command).1 = false := by
  by_contra hne
  have hvalid : (is_command_valid argv command).1 = true := by simpa using hne
  unfold is_command_valid at hvalid
  by_cases h9 : argv.length > 9
  · rw [if_pos h9] at hvalid
    exact absurd hvalid (by simp)
  · rw [if_neg h9] at hvalid
    by_cases h1 : argv.length = 1
    · have htail : argv.tail = [] := by
        rcases argv with _ | ⟨a, rest⟩
        · rfl
        · have : rest.length = 0 := by simpa using h1
          simpa using List.length_eq_zero.mp this
      rw [htail] at hargs
      exact absurd hargs (by simp)
    · rw [if_neg h1] at hvalid
      obtain ⟨lenArg, rest, hpost_eq, hdigits⟩ :=
        is_command_valid_loop_len argv.tail.length argv.tail command (le_refl _) hvalid
          pre post hargs
      rcases hpost with hnil | ⟨lenArg', rest'', hpost_eq', c, hc, hnot⟩
      · rw [hnil] at hpost_eq
        exact absurd hpost_eq (by simp)
      · rw [hpost_eq'] at hpost_eq
        simp only [List.cons.injEq] at hpost_eq
        rw [← hpost_eq.1] at hdigits
        have := List.all_eq_true.mp hdigits c hc
        rw [hnot] at this
        exact absurd this (by simp)

/-- C18 (evaluation at the failing input): the argument list `-len ""` is accepted,
with target length 0, although the argument of `-len` holds no digit. -/
theorem is_command_valid_len_blank :
    (is_command_valid [chars "wordle-helper", chars "-len", chars ""] init_command).1 = true ∧
    (is_command_valid [chars "wordle-helper", chars "-len", chars ""] init_command).2.len = 0 := by
  decide

/-! ## Best-score ranking -/

theorem score_nil (w : Weightings) : calculateWordScore [] w = 0 := by
  rw [calculateWordScore_float_to_int]
  have hS : weighted_sum [] w = 0 := by simp [weighted_sum]
  have hP : penalty [] = 0 := by simp [penalty, occurrences]
  rw [hS, hP]
  simpa using float_to_int_intCast 0

theorem score_diff_range (a b : StringViewer) (w : Weightings) (L : Nat) (hL : L < 2 ^ 26)
    (ha : a.length = L) (hb : b.length = L)
    (hw : ∀ r j, 0 ≤ r → r < 26 → j < L → 0 ≤ w r j ∧ w r j ≤ 1) :
    -2147483648 ≤ calculateWordScore b w - calculateWordScore a w ∧
      calculateWordScore b w - calculateWordScore a w ≤ 2147483647 := by
  rcases Nat.eq_zero_or_pos L with h0 | hpos
  · subst h0
    have ha' : a = [] := List.length_eq_zero.mp ha
    have hb' : b = [] := List.length_eq_zero.mp hb
    rw [ha', hb', score_nil]
    omega
  · have hb1 := score_bounds a w (by omega) (by rw [ha]; exact hw)
    have hb2 := score_bounds b w (by omega) (by rw [hb]; exact hw)
    rw [ha] at hb1
    rw [hb] at hb2
    have hlt' : (L : Int) < 67108864 := by
      have : (2 : Nat) ^ 26 = 67108864 := by norm_num
      omega
    omega

/-- C7: for every candidate list (tokens of one target length `L < 2^26`) and every
weighting table of relative frequencies (cells in `[0, 1]`, as every table
`populate_wordlist` builds has them), `sort_wordlist` under the best-score policy
(`isBest` set, `isAlpha` clear) returns a permutation of the list in which
`calculateWordScore` is non-increasing. -/
theorem sort_wordlist_best_sorted (wordList : StringViewers) (command : Command)
    (w : Weightings) (L : Nat) (hbest : command.isBest = true)
    (halpha : command.isAlpha = false) (hL : L < 2 ^ 26)
    (hlen : ∀ a ∈ wordList, a.length = L)
    (hw : ∀ r j, 0 ≤ r → r < 26 → j < L → 0 ≤ w r j ∧ w r j ≤ 1) :
    (sort_wordlist wordList command w).Perm wordList ∧
    (sort_wordlist wordList command w).Pairwise
      (fun a b => calculateWordScore b w ≤ calculateWordScore a w) := by
  have hsort : sort_wordlist wordList command w = qsort (compareWords w) wordList := by
    simp [sort_wordlist, hbest, halpha]
  rw [hsort]
  exact ⟨qsort_perm _ _, qsort_compareWords_sorted wordList w
    (fun a ha b hb => score_diff_range a b w L hL (hlen a ha) (hlen b hb) hw)⟩

/-- C7 at the list "b", "a" under `half_table` (scores 0 and 4). -/
theorem sort_wordlist_best_sorted_witness :
    (sort_wordlist [chars "b", chars "a"] best_command half_table).Perm
      [chars "b", chars "a"] ∧
    (sort_wordlist [chars "b", chars "a"] best_command half_table).Pairwise
      (fun a b => calculateWordScore b half_table ≤ calculateWordScore a half_table) :=
  sort_wordlist_best_sorted [chars "b", chars "a"] best_command half_table 1 rfl rfl
    (by norm_num) (by decide) (fun r j _ _ _ => half_table_bounds r j)

theorem position_count_le_length (tokens : List StringViewer) (r : Int) (j : Nat) :
    position_count tokens r j ≤ tokens.length :=
  List.countP_le_length _

/-- Every cell of the 26 rows and `len` columns of the table `populate_wordlist`
builds from the zeroed table lies in `[0, 1]`, when at least one token has the target
length. -/
theorem populate_wordlist_weightings_unit (wordList : StringViewers) (content : StringViewer)
    (command : Command) (hN : 1 ≤ (length_tokens content command.len).length) :
    ∀ (r : Int) (j : Nat), 0 ≤ r → r < 26 → j < command.len →
      0 ≤ (populate_wordlist wordList content command
            (init_weightings command.len)).weightings r j ∧
      (populate_wordlist wordList content command
            (init_weightings command.len)).weightings r j ≤ 1 := by
  intro r j h0 h26 hj
  rw [populate_wordlist_weightings]
  unfold normalise_weightings init_weightings
  rw [if_pos ⟨h0, h26, hj⟩]
  simp only [zero_add]
  have hNpos : (0 : ℚ) < ((length_tokens content command.len).length : ℚ) := by
    exact_mod_cast hN
  have hle : (position_count (length_tokens content command.len) r j : ℚ) ≤
      ((length_tokens content command.len).length : ℚ) := by
    exact_mod_cast position_count_le_length _ r j
  exact ⟨div_nonneg (Nat.cast_nonneg _) (le_of_lt hNpos), (div_le_one hNpos).mpr hle⟩

/-- The best-score ranking of the program itself: for every corpus buffer and every
command with `isBest` set, `isAlpha` clear and a target length below `2^26`, the
ranked list is a permutation of the candidate list of `populate_wordlist`, with
`calculateWordScore` under the table of `populate_wordlist` non-increasing. -/
theorem ranked_wordlist_best_sorted (content : StringViewer) (command : Command)
    (hbest : command.isBest = true) (halpha : command.isAlpha = false)
    (hL : command.len < 2 ^ 26) :
    (ranked_wordlist content command).Perm
      (populate_wordlist [] content command (init_weightings command.len)).wordList ∧
    (ranked_wordlist content command).Pairwise
      (fun a b =>
        calculateWordScore b
            (populate_wordlist [] content command (init_weightings command.len)).weightings ≤
          calculateWordScore a
            (populate_wordlist [] content command (init_weightings command.len)).weightings) := by
  have hranked : ranked_wordlist content command =
      qsort (compareWords
          (populate_wordlist [] content command (init_weightings command.len)).weightings)
        (populate_wordlist [] content command (init_weightings command.len)).wordList := by
    simp [ranked_wordlist, sort_wordlist, hbest, halpha]
  rw [hranked]
  refine ⟨qsort_perm _ _, qsort_compareWords_sorted _ _ ?_⟩
  intro a ha b hb
  obtain ⟨hta, hacca⟩ := mem_populate_wordlist content command _ a ha
  obtain ⟨_, haccb⟩ := mem_populate_wordlist content command _ b hb
  have hlena := ((accepts_iff command a).mp hacca).1
  have hlenb := ((accepts_iff command b).mp haccb).1
  have hmem : a ∈ length_tokens content command.len := by
    unfold length_tokens
    exact List.mem_filter.mpr ⟨hta, by simpa using hlena⟩
  have hN : 1 ≤ (length_tokens content command.len).length :=
    List.length_pos_of_mem hmem
  exact score_diff_range a b _ command.len hL hlena hlenb
    (populate_wordlist_weightings_unit [] content command hN)

end WordleHelper
